import Mathlib

/-!
A verification development for the expression-execution core of a columnar
database (`ExpressionActions.cpp`): the action DAG with its builders and
constant folding, the linearizer (`buildExpressions`), the block executor
(`execute` / `executeAction` / `checkLimits`), the always-false-column check,
and the legacy `ExpressionAction` equality and hash.

Conventions of the embedding:
* DAG nodes live in an append-only arena; node identity is the arena index
  (the C++ code uses stable `std::list` pointers).  Node removal replaces the
  arena slot by `none`, which keeps indices stable like the C++ pointers.
* Machine integers (`size_t`) are modelled by `Nat`; the code performs no
  wrapping arithmetic on them.
* Fallible C++ code (throwing `Exception`) is modelled with `Except Err`.
* External collaborators (columns, types, blocks, the function registry,
  `SipHash`, `TableJoin::sameJoin`) are not part of the source file; they are
  modelled from the specification where noted.
-/

namespace CH

/-! ### List helpers (explicit, so all lemmas are under our control) -/

def listGetOpt : List α → Nat → Option α
  | [], _ => none
  | x :: _, 0 => some x
  | _ :: xs, n + 1 => listGetOpt xs n

def listSet : List α → Nat → α → List α
  | [], _, _ => []
  | _ :: xs, 0, a => a :: xs
  | x :: xs, n + 1, a => x :: listSet xs n a

def listModify : List α → Nat → (α → α) → List α
  | [], _, _ => []
  | x :: xs, 0, f => f x :: xs
  | x :: xs, n + 1, f => x :: listModify xs n f

/-- `std::vector::resize`: truncate or pad with `pad` to length `n`. -/
def listResize (l : List α) (n : Nat) (pad : α) : List α :=
  l.take n ++ List.replicate (n - l.length) pad

/-! ### Values and columns

Column primitives are external to the source file.  Modelled from the spec:
immutable columnar value arrays supporting `size`, `cloneResized(n)`,
`replicate(offsets)`, `convertToFullColumnIfConst`, and a constant-column
predicate; a `ColumnSet` carries a (possibly unfinished) set. -/

inductive Scalar where
  | int : Int → Scalar
  | str : String → Scalar
deriving DecidableEq, Repr

/-- A cell value: a scalar, or one level of array (enough for the array-join
semantics exercised here; deeper nesting is not needed by any claim). -/
inductive Value where
  | prim : Scalar → Value
  | arr : List Scalar → Value
deriving DecidableEq, Repr

def Value.int (n : Int) : Value := .prim (.int n)

def Value.str (s : String) : Value := .prim (.str s)

inductive Column where
  /-- an ordinary materialized column (a `ColumnArray` when all values are `arr`) -/
  | full : List Value → Column
  /-- `ColumnConst`: a single value logically repeated `size` times -/
  | const : Nat → Value → Column
  /-- `ColumnSet created totalRowCount`: the special column carrying a set -/
  | set : Bool → Nat → Column
deriving DecidableEq, Repr

def Column.size : Column → Nat
  | .full vs => vs.length
  | .const n _ => n
  | .set _ _ => 0

def isColumnConst : Column → Bool
  | .const _ _ => true
  | _ => false

/-- `IColumn::cloneResized`.  Padding value for full columns is modelled as
`int 0` (the real code pads with the column type's default; no claim depends
on the padding value). -/
def Column.cloneResized : Column → Nat → Column
  | .const _ v, n => .const n v
  | .full vs, n => .full (vs.take n ++ List.replicate (n - vs.length) (.int 0))
  | .set a b, _ => .set a b

def Column.convertToFullColumnIfConst : Column → Column
  | .const n v => .full (List.replicate n v)
  | c => c

/-- `typeid_cast<const ColumnArray *>`: view a column as rows of arrays. -/
def Column.asArrayRows? : Column → Option (List (List Scalar))
  | .full vs => vs.mapM (fun v => match v with | .arr xs => some xs | _ => none)
  | _ => none

/-- `ColumnArray::getOffsets`: cumulative lengths, one entry per row. -/
def arrayOffsets (rows : List (List Scalar)) : List Nat :=
  (rows.foldl (fun (acc : Nat × List Nat) r =>
    (acc.1 + r.length, acc.2 ++ [acc.1 + r.length])) (0, [])).2

/-- expand each value `counts[i]` times; `offsets` are cumulative, `prev`
is the previous cumulative offset. -/
def replicateVals : List Value → List Nat → Nat → List Value
  | v :: vs, o :: os, prev => List.replicate (o - prev) v ++ replicateVals vs os o
  | _, _, _ => []

/-- `IColumn::replicate(offsets)`; a constant column replicates to a constant
column of the final cumulative size. -/
def Column.replicate : Column → List Nat → Column
  | .full vs, offsets => .full (replicateVals vs offsets 0)
  | .const _ v, offsets => .const (offsets.getLast?.getD 0) v
  | .set a b, _ => .set a b

/-- `IColumn::getName` (external); modelled as the column class name only,
which is all the legacy equality/hash path observes consistently. -/
def Column.getName : Column → String
  | .full _ => "Full"
  | .const _ _ => "Const"
  | .set _ _ => "Set"

/-! ### Types

The type system is external.  Modelled from the spec: value-type descriptors
with (deep) equality, a name, and nested-type extraction for array types. -/

inductive DataType where
  | scalar : String → DataType
  | array : DataType → DataType
deriving DecidableEq, Repr

def DataType.getName : DataType → String
  | .scalar s => s
  | .array t => "Array(" ++ DataType.getName t ++ ")"

/-! ### Columns-with-type-and-name and blocks

Modelled from the spec: a block is an ordered list of CWTs addressable by
position and by name; row count is the common length of the non-absent
columns. -/

structure ColumnWithTypeAndName where
  column : Option Column := none
  type : Option DataType := none
  name : String := ""
deriving DecidableEq, Repr

def emptyCWT : ColumnWithTypeAndName := {}

structure Block where
  data : List ColumnWithTypeAndName := []
deriving DecidableEq, Repr

def Block.rows (b : Block) : Nat :=
  match b.data.findSome? (fun c => c.column) with
  | some col => col.size
  | none => 0

def Block.getPositionByName? (b : Block) (n : String) : Option Nat :=
  b.data.findIdx? (fun c => c.name == n)

def Block.has (b : Block) (n : String) : Bool :=
  b.data.any (fun c => c.name == n)

/-- `Block::insert`: append at the end. -/
def Block.insert (b : Block) (c : ColumnWithTypeAndName) : Block :=
  ⟨b.data ++ [c]⟩

/-- `block.getByName(n) = c`: overwrite the (first) column named `n`. -/
def Block.setByName (b : Block) (n : String) (c : ColumnWithTypeAndName) : Block :=
  match b.data.findIdx? (fun d => d.name == n) with
  | some i => ⟨listSet b.data i c⟩
  | none => b

def Block.eraseAt (b : Block) (i : Nat) : Block :=
  ⟨b.data.eraseIdx i⟩

/-! ### Functions

The function registry and overload resolver are external.  Modelled from the
spec: a resolver `build(args) → prepared function` exposing
`execute(args, result_type, num_rows, dry_run) → column` plus metadata. -/

structure FunctionBase where
  name : String
  resultType : DataType
  argumentTypes : List DataType := []
  deterministic : Bool := true
  suitableForConstantFolding : Bool := false
  alwaysConstResult : List ColumnWithTypeAndName → Option Column := fun _ => none
  exec : List ColumnWithTypeAndName → DataType → Nat → Bool → Column

structure FunctionOverloadResolver where
  name : String
  build : List ColumnWithTypeAndName → FunctionBase

/-! ### Errors -/

inductive ErrorCode where
  | LOGICAL_ERROR
  | DUPLICATE_COLUMN
  | UNKNOWN_IDENTIFIER
  | NOT_FOUND_COLUMN_IN_BLOCK
  | TOO_MANY_TEMPORARY_COLUMNS
  | TOO_MANY_TEMPORARY_NON_CONST_COLUMNS
  | TYPE_MISMATCH
deriving DecidableEq, Repr

structure Err where
  code : ErrorCode
  message : String := ""
deriving DecidableEq, Repr

/-! ### The action DAG (`ActionsDAG`) -/

/-- `ActionsDAG::Type` (renamed: `Type` is a Lean keyword). -/
inductive NodeType where
  | INPUT
  | COLUMN
  | ALIAS
  | FUNCTION
  | ARRAY_JOIN
deriving DecidableEq, Repr

/-- `ActionsDAG::Node`.  `children` and `renaming_parent` are arena indices
(the C++ code stores stable `Node *` pointers into a `std::list`).
`func` models `node.function` (the prepared function). -/
structure Node where
  type : NodeType
  result_name : String := ""
  result_type : Option DataType := none
  children : List Nat := []
  column : Option Column := none
  function_base : Option FunctionBase := none
  func : Option (List ColumnWithTypeAndName → DataType → Nat → Bool → Column) := none
  allow_constant_folding : Bool := true
  is_function_compiled : Bool := false
  renaming_parent : Option Nat := none
  unique_column_name_for_array_join : String := ""

structure Settings where
  max_temporary_columns : Nat := 0
  max_temporary_non_const_columns : Nat := 0
  compile_expressions : Bool := false

structure Context where
  settings : Settings

/-- `ActionsDAG`: arena of nodes plus the name index.  A removed node leaves
`none` in its arena slot, so the indices held by `children` stay valid, like
the C++ `std::list` pointers. -/
structure ActionsDAG where
  nodes : List (Option Node) := []
  index : List (String × Nat) := []
  max_temporary_columns : Nat := 0
  max_temporary_non_const_columns : Nat := 0

def ActionsDAG.get (dag : ActionsDAG) (i : Nat) : Option Node :=
  (listGetOpt dag.nodes i).join

/-- assignment into the `unordered_map` index: one entry per name. -/
def indexSet (ix : List (String × Nat)) (k : String) (v : Nat) : List (String × Nat) :=
  (k, v) :: ix.filter (fun p => p.1 != k)

def ActionsDAG.dumpNames (dag : ActionsDAG) : String :=
  String.intercalate ", " ((dag.nodes.filterMap id).map (fun n => n.result_name))

/-- `ActionsDAG::addNode`.  Returns the updated DAG and the new node's id. -/
def ActionsDAG.addNode (dag : ActionsDAG) (node : Node) (can_replace : Bool) :
    Except Err (ActionsDAG × Nat) :=
  match dag.index.lookup node.result_name with
  | some oldId =>
    if !can_replace then
      .error ⟨.DUPLICATE_COLUMN, "Column '" ++ node.result_name ++ "' already exists"⟩
    else
      let id := dag.nodes.length
      let nodes1 := dag.nodes ++ [some node]
      let nodes2 := listModify nodes1 oldId
        (Option.map (fun n => { n with renaming_parent := some id }))
      .ok ({ dag with nodes := nodes2, index := indexSet dag.index node.result_name id }, id)
  | none =>
    let id := dag.nodes.length
    let nodes1 := dag.nodes ++ [some node]
    .ok ({ dag with nodes := nodes1, index := indexSet dag.index node.result_name id }, id)

/-- `ActionsDAG::getNode`: resolve a name through the index.  A stale index
entry (impossible for builder-produced DAGs) is reported as a logical error
instead of the C++ dangling-pointer dereference. -/
def ActionsDAG.getNode (dag : ActionsDAG) (name : String) : Except Err (Nat × Node) :=
  match dag.index.lookup name with
  | none => .error ⟨.UNKNOWN_IDENTIFIER, "Unknown identifier: '" ++ name ++ "'"⟩
  | some id =>
    match dag.get id with
    | some n => .ok (id, n)
    | none => .error ⟨.LOGICAL_ERROR, "stale index entry"⟩

def ActionsDAG.addInput (dag : ActionsDAG) (name : String) (ty : DataType) :
    Except Err (ActionsDAG × Nat) :=
  dag.addNode { type := .INPUT, result_type := some ty, result_name := name } false

def ActionsDAG.addInputColumn (dag : ActionsDAG) (c : ColumnWithTypeAndName) :
    Except Err (ActionsDAG × Nat) :=
  dag.addNode { type := .INPUT, result_type := c.type, result_name := c.name,
                column := c.column } false

def ActionsDAG.addColumn (dag : ActionsDAG) (c : ColumnWithTypeAndName) :
    Except Err (ActionsDAG × Nat) :=
  match c.column with
  | none => .error ⟨.LOGICAL_ERROR, "Cannot add column " ++ c.name ++ " because it is nullptr"⟩
  | some _ => dag.addNode { type := .COLUMN, result_type := c.type, result_name := c.name,
                            column := c.column } false

def ActionsDAG.addAlias (dag : ActionsDAG) (name : String) (aliasName : String)
    (can_replace : Bool) : Except Err (ActionsDAG × Nat) := do
  let (cid, child) ← dag.getNode name
  dag.addNode { type := .ALIAS, result_type := child.result_type, result_name := aliasName,
                column := child.column, allow_constant_folding := child.allow_constant_folding,
                children := [cid] } can_replace

def ActionsDAG.addArrayJoin (dag : ActionsDAG) (source_name result_name unique_name : String) :
    Except Err (ActionsDAG × Nat) := do
  let (cid, child) ← dag.getNode source_name
  match child.result_type with
  | some (.array nested) =>
    dag.addNode { type := .ARRAY_JOIN, result_type := some nested, result_name := result_name,
                  unique_column_name_for_array_join := unique_name, children := [cid] } false
  | _ => .error ⟨.TYPE_MISMATCH, "ARRAY JOIN requires array argument"⟩

/-- the argument-gathering loop of `ActionsDAG::addFunction`: resolve each
argument name, collect child ids and argument CWTs, and accumulate the
`allow_constant_folding` conjunction and the `all_const` flag. -/
def ActionsDAG.gatherFunctionArguments (dag : ActionsDAG) :
    List String → Except Err (List Nat × List ColumnWithTypeAndName × Bool × Bool)
  | [] => .ok ([], [], true, true)
  | n :: rest => do
    let (cid, child) ← dag.getNode n
    let (ids, args, fold, allc) ← dag.gatherFunctionArguments rest
    let argument : ColumnWithTypeAndName := { column := child.column, type := child.result_type }
    let isc : Bool := match child.column with
      | some c => isColumnConst c
      | none => false
    .ok (cid :: ids, argument :: args, child.allow_constant_folding && fold, isc && allc)

/-- the row count used by constant folding:
`arguments.empty() ? 0 : arguments.front().column->size()`. -/
def foldRowCount (args : List ColumnWithTypeAndName) : Nat :=
  match args with
  | [] => 0
  | a :: _ => (a.column.map Column.size).getD 0

/-- the column attached by constant folding: the dry-run result, resized to
1 if it came out empty. -/
def foldedConstant (fb : FunctionBase) (args : List ColumnWithTypeAndName) : Column :=
  let col := fb.exec args fb.resultType (foldRowCount args) true
  if col.size == 0 then col.cloneResized 1 else col

/-- `ActionsDAG::addFunction`.  `do_compile_expressions` models the
`USE_EMBEDDED_COMPILER` build reading `settings.compile_expressions`; the
compiled-expression cache itself is irrelevant to the semantics here. -/
def ActionsDAG.addFunction (dag0 : ActionsDAG) (function : FunctionOverloadResolver)
    (argument_names : List String) (result_name0 : String) (context : Context) :
    Except Err (ActionsDAG × Nat) := do
  let settings := context.settings
  let dag := { dag0 with max_temporary_columns := settings.max_temporary_columns,
                         max_temporary_non_const_columns := settings.max_temporary_non_const_columns }
  let do_compile_expressions := settings.compile_expressions
  let (children, arguments, allow_fold, all_const) ← dag.gatherFunctionArguments argument_names
  let fb := function.build arguments
  let result_type := fb.resultType
  /- constant folding: run the function at `dry_run = true`; the row count is
     the size of the first argument's column (0 when there are no arguments). -/
  let folded : Option Column :=
    if all_const && fb.suitableForConstantFolding
        && (!do_compile_expressions || fb.deterministic) then
      let col := fb.exec arguments result_type (foldRowCount arguments) true
      if isColumnConst col then
        some (if col.size == 0 then col.cloneResized 1 else col)
      else none
    else none
  let folded2 : Option Column × Bool :=
    match folded with
    | some c => (some c, allow_fold)
    | none =>
      if fb.suitableForConstantFolding then
        match fb.alwaysConstResult arguments with
        | some c => (some c, false)
        | none => (none, allow_fold)
      else (none, allow_fold)
  let result_name :=
    if result_name0 == "" then
      function.name ++ "(" ++ String.intercalate ", " argument_names ++ ")"
    else result_name0
  dag.addNode { type := .FUNCTION, result_name := result_name, result_type := some result_type,
                children := children, column := folded2.1, function_base := some fb,
                func := some fb.exec, allow_constant_folding := folded2.2 } false

/-! ### Pruning (`ActionsDAG::removeUnusedActions`) -/

def childrenOf (dag : ActionsDAG) (i : Nat) : List Nat :=
  match dag.get i with
  | some n => n.children
  | none => []

/-- the inner loop of the DFS: push every not-yet-visited child, marking it
visited as it is pushed (`visited_nodes.insert` / `stack.push`). -/
def pushChildren (vs : Finset Nat) (st : List Nat) : List Nat → Finset Nat × List Nat
  | [] => (vs, st)
  | c :: cs =>
    if c ∈ vs then pushChildren vs st cs
    else pushChildren (insert c vs) (c :: st) cs

/-- the DFS of `removeUnusedActions`, fuelled (the C++ `while (!stack.empty())`
terminates because each id is pushed at most once; the fuel supplied below is
large enough for that, which the reachability theorem proves). -/
def dfsVisit (ch : Nat → List Nat) : Nat → Finset Nat → List Nat → Finset Nat
  | 0, vs, _ => vs
  | _ + 1, vs, [] => vs
  | fuel + 1, vs, x :: st =>
    let p := pushChildren vs st (ch x)
    dfsVisit ch fuel p.1 p.2

/-- the first loop of `removeUnusedActions`: build `new_index` (one entry per
required name) and the root list, failing with UNKNOWN_IDENTIFIER on the
first missing name. -/
def ActionsDAG.collectRoots (dag : ActionsDAG) :
    List String → Except Err (List (String × Nat))
  | [] => .ok []
  | n :: rest =>
    match dag.index.lookup n with
    | none => .error ⟨.UNKNOWN_IDENTIFIER,
        "Unknown column: " ++ n ++ ", there are only columns " ++ dag.dumpNames⟩
    | some id => do
      let rs ← dag.collectRoots rest
      .ok ((n, id) :: rs)

def ActionsDAG.removeUnusedActions (dag : ActionsDAG) (required_names : List String) :
    Except Err ActionsDAG := do
  let roots ← dag.collectRoots required_names
  let rootIds := roots.map (fun r => r.2)
  let visited0 : Finset Nat := rootIds.foldl (fun s i => insert i s) ∅
  -- the C++ pushes the roots in order, so the last required name is on top
  let visited := dfsVisit (childrenOf dag) (rootIds.length + dag.nodes.length)
      visited0 rootIds.reverse
  -- `nodes.remove_if`: drop every node that was not visited
  let nodes1 := dag.nodes.enum.map (fun p => if p.1 ∈ visited then p.2 else none)
  -- clear `renaming_parent` when it points at a removed node
  let nodes2 := nodes1.map (Option.map (fun n =>
    match n.renaming_parent with
    | some rp => if rp ∈ visited then n else { n with renaming_parent := none }
    | none => n))
  let newIndex := roots.foldl (fun ix r => indexSet ix r.1 r.2) []
  .ok { dag with nodes := nodes2, index := newIndex }

/-! ### The linearized program (`ExpressionActions`) and the linearizer -/

structure Argument where
  pos : Nat
  remove : Bool
deriving DecidableEq, Repr

/-- `ExpressionActions::Action`; `node` is an id into the program's node
storage (the C++ keeps a `Node *`). -/
structure Action where
  node : Nat
  arguments : List Argument
  result_position : Nat
  is_used_in_result : Bool
deriving DecidableEq, Repr

structure ExpressionActions where
  nodes : List (Option Node) := []
  actions : List Action := []
  required_columns : List (String × Option DataType) := []
  sample_block : Block := {}
  num_columns : Nat := 0
  project_input : Bool := false
  max_temporary_non_const_columns : Nat := 0

/-- the per-node bookkeeping (`ActionsDAG::buildExpressions`'s `Data`). -/
structure BEData where
  num_created_children : Nat := 0
  num_expected_children : Nat := 0
  parents : List Nat := []
  renamed_child : Option Nat := none
  position : Option Nat := none
  num_created_parents : Nat := 0
  used_in_result : Bool := false
deriving DecidableEq, Repr

def getData (data : List BEData) (i : Nat) : BEData :=
  (listGetOpt data i).getD {}

def dataSet (data : List BEData) (i : Nat) (f : BEData → BEData) : List BEData :=
  listModify data i f

structure BuildState where
  data : List BEData
  ready_nodes : List Nat
  ready_array_joins : List Nat
  actions : List Action
  required_columns : List (String × Option DataType)
  sample_block : Block
  num_columns : Nat
  free_positions : List Nat

/-- the initialization loops of `buildExpressions`: expected-children counts,
`used_in_result`, parent lists, renamed-child links, and the initial ready
queue (nodes with no children and no renamed child, in arena order, matching
the C++ iteration order of the node list). -/
def initBuildState (dag : ActionsDAG) : BuildState :=
  let n := dag.nodes.length
  let data0 : List BEData := List.replicate n {}
  let data1 := (List.range n).foldl (fun data i =>
    match dag.get i with
    | none => data
    | some node =>
      let data := dataSet data i (fun d =>
        { d with num_expected_children := d.num_expected_children + node.children.length,
                 used_in_result := node.renaming_parent.isNone
                   && (dag.index.lookup node.result_name).isSome })
      let data := node.children.foldl (fun data c =>
        dataSet data c (fun d => { d with parents := d.parents ++ [i] })) data
      match node.renaming_parent with
      | some rp => dataSet data rp (fun d =>
          { d with renamed_child := some i,
                   num_expected_children := d.num_expected_children + 1 })
      | none => data) data0
  let ready0 := (List.range n).filter (fun i =>
    match dag.get i with
    | some node => node.children.isEmpty && (getData data1 i).renamed_child.isNone
    | none => false)
  { data := data1, ready_nodes := ready0, ready_array_joins := [],
    actions := [], required_columns := [], sample_block := {},
    num_columns := 0, free_positions := [] }

/-- `update_parent`: bump `num_created_children`; on reaching the expected
count, enqueue on the array-join queue for ARRAY_JOIN nodes, else on the main
queue. -/
def updateParent (nodes : List (Option Node)) (st : BuildState) (p : Nat) : BuildState :=
  let d := getData st.data p
  let ncc := d.num_created_children + 1
  let data1 := dataSet st.data p (fun dd => { dd with num_created_children := ncc })
  let st1 := { st with data := data1 }
  if ncc = d.num_expected_children then
    match (listGetOpt nodes p).join with
    | some pn =>
      if pn.type = .ARRAY_JOIN then
        { st1 with ready_array_joins := st1.ready_array_joins ++ [p] }
      else { st1 with ready_nodes := st1.ready_nodes ++ [p] }
    | none => { st1 with ready_nodes := st1.ready_nodes ++ [p] }
  else st1

/-- the argument-assembly loop: for each child, require a computed position,
bump its `num_created_parents`, and tag `remove` exactly when the bumped
count reaches the child's total parent count and the child is not used in
the result. -/
def collectArguments (data : List BEData) :
    List Nat → Except Err (List BEData × List Argument)
  | [] => .ok (data, [])
  | c :: cs =>
    let d := getData data c
    match d.position with
    | none => .error ⟨.LOGICAL_ERROR, "Argument was not calculated"⟩
    | some pos => do
      let ncp := d.num_created_parents + 1
      let data1 := dataSet data c (fun dd => { dd with num_created_parents := ncp })
      let (data2, args) ← collectArguments data1 cs
      let arg : Argument := ⟨pos, !d.used_in_result && ncp == d.parents.length⟩
      .ok (data2, arg :: args)

/-- pop from the main ready queue, falling back to the array-join queue
(`auto & stack = ready_nodes.empty() ? ready_array_joins : ready_nodes`). -/
def pickReady (st : BuildState) : Option (Nat × BuildState) :=
  match st.ready_nodes with
  | x :: rest => some (x, { st with ready_nodes := rest })
  | [] =>
    match st.ready_array_joins with
    | x :: rest => some (x, { st with ready_array_joins := rest })
    | [] => none

/-- one iteration of the main linearization loop. -/
def processNode (nodes : List (Option Node)) (x : Nat) (st : BuildState) :
    Except Err BuildState := do
  match (listGetOpt nodes x).join with
  | none => .error ⟨.LOGICAL_ERROR, "node storage hole"⟩
  | some node =>
    let cur := getData st.data x
    -- slot allocation: pop a free slot, or extend the slot count by one
    let fp3 : Nat × Nat × List Nat :=
      match st.free_positions with
      | [] => (st.num_columns, st.num_columns + 1, [])
      | p :: ps => (p, st.num_columns, ps)
    let free_position := fp3.1
    let data1 := dataSet st.data x (fun d => { d with position := some free_position })
    let (data2, args) ← collectArguments data1 node.children
    let st1 := { st with data := data2, num_columns := fp3.2.1, free_positions := fp3.2.2 }
    let st2 :=
      if node.type = .INPUT then
        { st1 with required_columns := st1.required_columns ++ [(node.result_name, node.result_type)] }
      else
        { st1 with actions := st1.actions ++ [⟨x, args, free_position, cur.used_in_result⟩] }
    let sample1 := st2.sample_block.insert ⟨node.column, node.result_type, node.result_name⟩
    let st3 :=
      if cur.used_in_result then { st2 with sample_block := sample1 } else st2
    let st4 := cur.parents.foldl (updateParent nodes) st3
    let st5 := match node.renaming_parent with
      | some rp => updateParent nodes st4 rp
      | none => st4
    .ok st5

def buildLoop (nodes : List (Option Node)) : Nat → BuildState → Except Err BuildState
  | 0, st => .ok st
  | fuel + 1, st =>
    match pickReady st with
    | none => .ok st
    | some (x, st1) => do
      let st2 ← processNode nodes x st1
      buildLoop nodes fuel st2

/-- `ActionsDAG::buildExpressions`.  The C++ swaps the node storage into the
program and clears the index *before* the slot-count check, so the
`dumpNames()` in the error message runs on the emptied DAG. -/
def ActionsDAG.buildExpressions (dag : ActionsDAG) : Except Err ExpressionActions := do
  let st ← buildLoop dag.nodes (2 * dag.nodes.length + 1) (initBuildState dag)
  let expressions : ExpressionActions :=
    { nodes := dag.nodes, actions := st.actions, required_columns := st.required_columns,
      sample_block := st.sample_block, num_columns := st.num_columns,
      project_input := false,
      max_temporary_non_const_columns := dag.max_temporary_non_const_columns }
  let emptied : ActionsDAG := { dag with nodes := [], index := [] }
  if dag.max_temporary_columns ≠ 0 ∧ expressions.num_columns > dag.max_temporary_columns then
    .error ⟨.TOO_MANY_TEMPORARY_COLUMNS,
      "Too many temporary columns: " ++ emptied.dumpNames ++ ". Maximum: "
        ++ toString dag.max_temporary_columns⟩
  else
    .ok expressions

/-! ### The executor (`ExpressionActions::execute` and helpers) -/

/-- Per-invocation execution state.  `input_columns` aliases the block's
column vector (modelled from the spec: the original input columns are
replicated by ARRAY JOIN, and the block is the object being mutated), so the
block content after the action loop is `input_columns`. -/
structure ExecutionContext where
  input_columns : List ColumnWithTypeAndName
  columns : List ColumnWithTypeAndName
  num_rows : Nat
deriving DecidableEq, Repr

def ExpressionActions.getNodeOpt (p : ExpressionActions) (i : Nat) : Option Node :=
  (listGetOpt p.nodes i).join

def typeNameOpt : Option DataType → String
  | some t => t.getName
  | none => "(no type)"

def columnNameOpt : Option Column → String
  | some c => c.getName
  | none => "(no column)"

def ExpressionActions.childNameAt (p : ExpressionActions) (node : Node) (k : Nat) : String :=
  match node.children.drop k with
  | [] => ""
  | c :: _ =>
    match p.getNodeOpt c with
    | some cn => cn.result_name
    | none => ""

/-- `ExpressionActions::Action::toString` (used to annotate errors). -/
def ExpressionActions.actionToString (p : ExpressionActions) (a : Action) : String :=
  match p.getNodeOpt a.node with
  | none => ""
  | some node =>
    match node.type with
    | .COLUMN =>
      "COLUMN " ++ node.result_name ++ " " ++ typeNameOpt node.result_type ++ " "
        ++ columnNameOpt node.column
    | .ALIAS =>
      let removing := match a.arguments with
        | arg :: _ => if arg.remove then " (removing)" else ""
        | [] => ""
      "ALIAS " ++ node.result_name ++ " = " ++ p.childNameAt node 0 ++ removing
    | .FUNCTION =>
      let fn := match node.function_base with
        | some fb => fb.name
        | none => "(no function)"
      let argNames := String.intercalate ", "
        (node.children.map (fun c =>
          match p.getNodeOpt c with
          | some cn => cn.result_name
          | none => ""))
      "FUNCTION " ++ node.result_name ++ " "
        ++ (if node.is_function_compiled then "[compiled] " else "")
        ++ typeNameOpt node.result_type ++ " = " ++ fn ++ "(" ++ argNames ++ ")"
    | .ARRAY_JOIN => "ARRAY JOIN " ++ p.childNameAt node 0 ++ " -> " ++ node.result_name
    | .INPUT => ""

/-- move the arguments out of their slots (`std::move` leaves an empty
column-with-type-and-name behind). -/
def takeArguments (columns : List ColumnWithTypeAndName) :
    List Argument → Except Err (List ColumnWithTypeAndName × List ColumnWithTypeAndName)
  | [] => .ok (columns, [])
  | a :: rest =>
    match listGetOpt columns a.pos with
    | none => .error ⟨.LOGICAL_ERROR, "argument slot out of range"⟩
    | some c => do
      let (cols1, args) ← takeArguments (listSet columns a.pos emptyCWT) rest
      .ok (cols1, c :: args)

/-- the loop after `function->execute`.  Source lines 204-206 read
`arguments[i] = std::move(columns[action.arguments[i].pos]);` — note the
direction: the (already moved-from, hence empty) slot is moved into the
local `arguments` vector, which is then discarded; the slot is *not*
restored.  The net effect on the slots is that a non-removed argument slot
is (re)emptied, which this models faithfully. -/
def restoreArguments (columns : List ColumnWithTypeAndName) :
    List Argument → List ColumnWithTypeAndName
  | [] => columns
  | a :: rest =>
    if !a.remove then restoreArguments (listSet columns a.pos emptyCWT) rest
    else restoreArguments columns rest

def replicateColumns (cols : List ColumnWithTypeAndName) (offsets : List Nat) :
    List ColumnWithTypeAndName :=
  cols.map (fun c =>
    match c.column with
    | some col => { c with column := some (col.replicate offsets) }
    | none => c)

/-- `ExpressionActions::executeAction`. -/
def executeAction (p : ExpressionActions) (action : Action) (ctx : ExecutionContext)
    (dry_run : Bool) : Except Err ExecutionContext := do
  match p.getNodeOpt action.node with
  | none => .error ⟨.LOGICAL_ERROR, "action node missing"⟩
  | some node =>
    match node.type with
    | .FUNCTION =>
      match listGetOpt ctx.columns action.result_position with
      | none => .error ⟨.LOGICAL_ERROR, "result slot out of range"⟩
      | some res0 =>
        if res0.type.isSome || res0.column.isSome then
          .error ⟨.LOGICAL_ERROR, "Result column is not empty"⟩
        else
          match node.result_type, node.func with
          | some rt, some f => do
            -- the type and name are written into the result slot first
            let cols0 := listModify ctx.columns action.result_position
              (fun c => { c with type := some rt, name := node.result_name })
            let (cols1, args) ← takeArguments cols0 action.arguments
            let newcol := f args rt ctx.num_rows dry_run
            let cols2 := listModify cols1 action.result_position
              (fun c => { c with column := some newcol })
            let cols3 := restoreArguments cols2 action.arguments
            .ok { ctx with columns := cols3 }
          | _, _ => .error ⟨.LOGICAL_ERROR, "malformed FUNCTION node"⟩
    | .ARRAY_JOIN =>
      match action.arguments with
      | [] => .error ⟨.LOGICAL_ERROR, "ARRAY JOIN without argument"⟩
      | front :: _ =>
        match listGetOpt ctx.columns front.pos with
        | none => .error ⟨.LOGICAL_ERROR, "argument slot out of range"⟩
        | some array_join_key =>
          -- remove the array-join argument in advance if it is not needed
          let cols0 := if front.remove then listSet ctx.columns front.pos emptyCWT
                       else ctx.columns
          match array_join_key.column with
          | none => .error ⟨.LOGICAL_ERROR, "null column in ARRAY JOIN slot"⟩
          | some kcol0 =>
            let kcol := kcol0.convertToFullColumnIfConst
            match kcol.asArrayRows? with
            | none => .error ⟨.TYPE_MISMATCH, "ARRAY JOIN of not array: " ++ node.result_name⟩
            | some rows =>
              let offsets := arrayOffsets rows
              let cols1 := replicateColumns cols0 offsets
              let inputs1 := replicateColumns ctx.input_columns offsets
              match listGetOpt cols1 action.result_position with
              | none => .error ⟨.LOGICAL_ERROR, "result slot out of range"⟩
              | some res0 =>
                match array_join_key.type with
                | some (.array elemTy) =>
                  let flat : Column := .full (rows.flatten.map Value.prim)
                  let res := { res0 with column := some flat, type := some elemTy }
                  let cols2 := listSet cols1 action.result_position res
                  .ok { input_columns := inputs1, columns := cols2, num_rows := flat.size }
                | _ => .error ⟨.LOGICAL_ERROR, "ARRAY JOIN key slot does not carry an array type"⟩
    | .COLUMN =>
      match listGetOpt ctx.columns action.result_position, node.column with
      | some res0, some c =>
        let res := { res0 with column := some (c.cloneResized ctx.num_rows),
                               type := node.result_type }
        .ok { ctx with columns := listSet ctx.columns action.result_position res }
      | _, _ => .error ⟨.LOGICAL_ERROR, "malformed COLUMN action"⟩
    | .ALIAS =>
      match action.arguments with
      | [] => .error ⟨.LOGICAL_ERROR, "ALIAS without argument"⟩
      | arg :: _ =>
        match listGetOpt ctx.columns action.result_position, listGetOpt ctx.columns arg.pos with
        | some res0, some src =>
          let res1 := if action.result_position ≠ arg.pos then
              { res0 with column := src.column, type := src.type }
            else res0
          let res2 := { res1 with name := node.result_name }
          let cols1 := listSet ctx.columns action.result_position res2
          let cols2 := if arg.remove then listSet cols1 arg.pos emptyCWT else cols1
          .ok { ctx with columns := cols2 }
        | _, _ => .error ⟨.LOGICAL_ERROR, "slot out of range"⟩
    | .INPUT => .error ⟨.LOGICAL_ERROR, "Cannot execute INPUT action"⟩

/-- `ExpressionActions::checkLimits`.  Modelled from the spec: the guard and
the threshold read the same budget (the C++ reads the budget member in the
guard and `settings.max_temporary_non_const_columns` — set outside this
file — in the comparison; the spec specifies a single budget). -/
def ExpressionActions.checkLimits (p : ExpressionActions) (ctx : ExecutionContext) :
    Except Err Unit :=
  if p.max_temporary_non_const_columns ≠ 0 then
    let isNonConst : ColumnWithTypeAndName → Bool := fun c =>
      match c.column with
      | some col => !isColumnConst col
      | none => false
    let non_const_columns := (ctx.columns.filter isNonConst).length
    if non_const_columns > p.max_temporary_non_const_columns then
      let names := ((ctx.columns.filter isNonConst).map (fun c => "\n" ++ c.name)).foldl
        (fun a b => a ++ b) ""
      .error ⟨.TOO_MANY_TEMPORARY_NON_CONST_COLUMNS,
        "Too many temporary non-const columns:" ++ names ++ ". Maximum: "
          ++ toString p.max_temporary_non_const_columns⟩
    else .ok ()
  else .ok ()

/-- the action loop: run each action, then the limit check; any error is
annotated with the rendered action (`e.addMessage`). -/
def runActions (p : ExpressionActions) (dry_run : Bool) :
    List Action → ExecutionContext → Except Err ExecutionContext
  | [], ctx => .ok ctx
  | a :: rest, ctx =>
    let wrapped : Except Err ExecutionContext := do
      let ctx1 ← executeAction p a ctx dry_run
      p.checkLimits ctx1
      .ok ctx1
    match wrapped with
    | .error e => .error { e with
        message := e.message ++ " while executing '" ++ p.actionToString a ++ "'" }
    | .ok ctx1 => runActions p dry_run rest ctx1

/-- the input-gathering loop of `execute`: find each required column by name,
copy it into the next slot, and record its position for later erasure unless
the name also occurs in `sample_block`.  (`Block::getPositionByName` throws
NOT_FOUND_COLUMN_IN_BLOCK when the name is absent.)  Modelled from the spec:
the column is copied into its slot and the *position* is remembered for the
erase phase, the block keeping its column until then. -/
def gatherInputs (p : ExpressionActions) (block : Block) :
    List (String × Option DataType) →
    Except Err (List ColumnWithTypeAndName × List Nat)
  | [] => .ok ([], [])
  | (name, _) :: rest =>
    match block.getPositionByName? name with
    | none => .error ⟨.NOT_FOUND_COLUMN_IN_BLOCK, "Not found column " ++ name ++ " in block"⟩
    | some pos => do
      let (slots, removes) ← gatherInputs p block rest
      let slot := (listGetOpt block.data pos).getD emptyCWT
      let removes1 := if p.sample_block.has name then removes else pos :: removes
      .ok (slot :: slots, removes1)

/-- phases 1–2 of `execute`: build the execution context and run the action
loop; also returns `inputs_to_remove`. -/
def ExpressionActions.executeCtx (p : ExpressionActions) (block : Block) (dry_run : Bool) :
    Except Err (ExecutionContext × List Nat) := do
  let num_rows := block.rows
  let (slots, inputs_to_remove) ← gatherInputs p block p.required_columns
  let columns0 := listResize slots p.num_columns emptyCWT
  let ctx0 : ExecutionContext :=
    { input_columns := block.data, columns := columns0, num_rows := num_rows }
  let ctx ← runActions p dry_run p.actions ctx0
  .ok (ctx, inputs_to_remove)

def insertDesc (x : Nat) : List Nat → List Nat
  | [] => [x]
  | y :: ys => if x ≥ y then x :: y :: ys else y :: insertDesc x ys

/-- `std::sort(inputs_to_remove.rbegin(), inputs_to_remove.rend())`:
descending order. -/
def sortDesc : List Nat → List Nat
  | [] => []
  | x :: xs => insertDesc x (sortDesc xs)

/-- the erase loop: erase the recorded positions in descending order so that
positions remain stable. -/
def eraseDesc (b : Block) (ps : List Nat) : Block :=
  (sortDesc ps).foldl (fun bl i => bl.eraseAt i) b

/-- the final loop of `execute`: move the result column of every action
flagged `is_used_in_result` into the block under the node's result name,
overwriting an existing column of that name. -/
def insertResults (p : ExpressionActions) :
    List Action → List ColumnWithTypeAndName → Block → Block
  | [], _, b => b
  | a :: rest, columns, b =>
    if a.is_used_in_result then
      match listGetOpt columns a.result_position, p.getNodeOpt a.node with
      | some col0, some node =>
        let col := { col0 with name := node.result_name }
        -- `std::move(column)` empties the slot
        let columns1 := listSet columns a.result_position emptyCWT
        let b1 := if b.has node.result_name then b.setByName node.result_name col
                  else b.insert col
        insertResults p rest columns1 b1
      | _, _ => insertResults p rest columns b
    else insertResults p rest columns b

/-- `ExpressionActions::execute`: mutate the block to carry the program's
results. -/
def ExpressionActions.execute (p : ExpressionActions) (block : Block) (dry_run : Bool) :
    Except Err Block := do
  let (ctx, inputs_to_remove) ← p.executeCtx block dry_run
  let blockC :=
    if p.project_input then Block.mk []
    else eraseDesc (Block.mk ctx.input_columns) inputs_to_remove
  .ok (insertResults p p.actions ctx.columns blockC)

/-- the body of the reverse scan of `checkColumnIsAlwaysFalse`: an action
computing `column_name` as `in`/`globalIn` with at least two children yields
the right-hand side's result name (and the scan breaks there). -/
def inScanStep (p : ExpressionActions) (column_name : String) (a : Action) : Option String :=
  match p.getNodeOpt a.node with
  | some node =>
    if node.type == .FUNCTION && node.function_base.isSome
        && node.result_name == column_name && decide (node.children.length > 1) then
      match node.function_base, listGetOpt node.children 1 with
      | some fb, some cid =>
        if fb.name == "in" || fb.name == "globalIn" then
          match p.getNodeOpt cid with
          | some cnode => some cnode.result_name
          | none => none -- dangling child id: the C++ would dereference it
        else none
      | _, _ => none
    else none
  | none => none

/-- the body of the forward scan: a COLUMN action named `set_to_check`
whose (non-constant) `ColumnSet` is created with zero rows. -/
def emptySetColumnStep (p : ExpressionActions) (set_to_check : String) (a : Action) : Bool :=
  match p.getNodeOpt a.node with
  | some node =>
    node.type == .COLUMN && node.result_name == set_to_check &&
      (match node.column with
       | some (.set created rowcount) => created && rowcount == 0
       | _ => false)
  | none => false

/-- `ExpressionActions::checkColumnIsAlwaysFalse`.  The C++ uses an empty
string as the not-found sentinel for `set_to_check`. -/
def ExpressionActions.checkColumnIsAlwaysFalse (p : ExpressionActions)
    (column_name : String) : Bool :=
  let set_to_check : String :=
    (p.actions.reverse.findSome? (inScanStep p column_name)).getD ""
  if set_to_check ≠ "" then
    p.actions.any (emptySetColumnStep p set_to_check)
  else false

/-! ### The legacy `ExpressionAction` (equality and hash) -/

/-- `ExpressionAction::Type`: the kinds discriminated by `ActionHash`. -/
inductive EAType where
  | ADD_COLUMN
  | REMOVE_COLUMN
  | COPY_COLUMN
  | APPLY_FUNCTION
  | ARRAY_JOIN
  | PROJECT
  | ADD_ALIASES
deriving DecidableEq, Repr

def EAType.toNat : EAType → Nat
  | .ADD_COLUMN => 0
  | .REMOVE_COLUMN => 1
  | .COPY_COLUMN => 2
  | .APPLY_FUNCTION => 3
  | .ARRAY_JOIN => 4
  | .PROJECT => 5
  | .ADD_ALIASES => 6

/-- Modelled from the spec: `TableJoin::sameJoin` is structural equality of
the join descriptor (null equals null); the descriptor itself is opaque
here. -/
def sameJoin (a b : Option String) : Bool := a == b

structure ExpressionAction where
  type : EAType
  source_name : String := ""
  result_name : String := ""
  result_type : Option DataType := none
  added_column : Option Column := none
  function_base : Option FunctionBase := none
  argument_names : List String := []
  table_join : Option String := none
  projection : List (String × String) := []
  is_function_compiled : Bool := false

/-- `ExpressionAction::operator==`.  Note: the action `type` is *not*
compared.  The C++ pointer-equality shortcuts on `result_type`,
`function_base` and `added_column` only skip comparisons that would succeed
anyway, so they are modelled by the value comparisons below. -/
def eaEq (x y : ExpressionAction) : Bool :=
  (match x.result_type, y.result_type with
   | none, none => true
   | some a, some b => a == b
   | _, _ => false)
  && (match x.function_base, y.function_base with
      | none, none => true
      | some f, some g => f.name == g.name && f.argumentTypes == g.argumentTypes
      | _, _ => false)
  && (match x.added_column, y.added_column with
      | none, none => true
      | some a, some b => a.getName == b.getName
      | _, _ => false)
  && x.source_name == y.source_name
  && x.result_name == y.result_name
  && x.argument_names == y.argument_names
  && sameJoin x.table_join y.table_join
  && x.projection == y.projection
  && x.is_function_compiled == y.is_function_compiled

/-- one `SipHash::update` call.  Modelled from the spec: the hash is a
non-cryptographic mix of the updated data, so it is modelled by its update
transcript — two transcripts are equal exactly when the hash is fed the
same data. -/
inductive HashToken where
  | num : Nat → HashToken
  | txt : String → HashToken
deriving DecidableEq, Repr

/-- `ExpressionAction::ActionHash::operator()`: mix the kind, the
`is_function_compiled` flag, and the per-kind discriminating fields. -/
def actionHash (a : ExpressionAction) : List HashToken :=
  [.num a.type.toNat, .num (cond a.is_function_compiled 1 0)]
  ++ (match a.type with
      | .ADD_COLUMN =>
        [.txt a.result_name]
        ++ (match a.result_type with | some t => [.txt t.getName] | none => [])
        ++ (match a.added_column with | some c => [.txt c.getName] | none => [])
      | .REMOVE_COLUMN => [.txt a.source_name]
      | .COPY_COLUMN => [.txt a.result_name, .txt a.source_name]
      | .APPLY_FUNCTION =>
        [.txt a.result_name]
        ++ (match a.result_type with | some t => [.txt t.getName] | none => [])
        ++ (match a.function_base with
            | some fb => [.txt fb.name] ++ fb.argumentTypes.map (fun t => .txt t.getName)
            | none => [])
        ++ a.argument_names.map (fun s => .txt s)
      | .ARRAY_JOIN => [.txt a.result_name, .txt a.source_name]
      | .PROJECT => a.projection.foldr (fun pr acc => .txt pr.1 :: .txt pr.2 :: acc) []
      | .ADD_ALIASES => [])

/-! ### Specification-side definitions (used to state the claims) -/

/-- keep exactly the positions not listed in `ps` (the claim-side reading of
"the recorded input positions are erased and all other columns are
preserved"). -/
def keepIdxsFrom (ps : List Nat) : Nat → List α → List α
  | _, [] => []
  | ofs, x :: xs =>
    if ofs ∈ ps then keepIdxsFrom ps (ofs + 1) xs
    else x :: keepIdxsFrom ps (ofs + 1) xs

def keepIdxs (l : List α) (ps : List Nat) : List α :=
  keepIdxsFrom ps 0 l

/-- The claim-side composition for C1: run the program, then — when
`project_input` is false — keep exactly the input positions that were not
recorded for removal (preserving every other pre-existing column), or — when
`project_input` is true — clear the block; then move every
`is_used_in_result` action's result column into the block under its node's
result name, overwriting an existing column of that name. -/
def ExpressionActions.executeSpec (p : ExpressionActions) (block : Block) (dry_run : Bool) :
    Except Err Block := do
  let (ctx, inputs_to_remove) ← p.executeCtx block dry_run
  let blockC :=
    if p.project_input then Block.mk []
    else Block.mk (keepIdxs ctx.input_columns inputs_to_remove)
  .ok (insertResults p p.actions ctx.columns blockC)

def nodeNameAt (p : ExpressionActions) (i : Nat) : Option String :=
  (p.getNodeOpt i).map (fun n => n.result_name)

def nodeTypeAt (p : ExpressionActions) (i : Nat) : Option NodeType :=
  (p.getNodeOpt i).map (fun n => n.type)

def nodeChildrenAt (p : ExpressionActions) (i : Nat) : List Nat :=
  ((p.getNodeOpt i).map (fun n => n.children)).getD []

def nodeColumnAt (p : ExpressionActions) (i : Nat) : Option (Option Column) :=
  (p.getNodeOpt i).map (fun n => n.column)

def nodeFnNameAt (p : ExpressionActions) (i : Nat) : Option (Option String) :=
  (p.getNodeOpt i).map (fun n => n.function_base.map (fun fb => fb.name))

def nodeHasFnAt (p : ExpressionActions) (i : Nat) : Bool :=
  ((p.getNodeOpt i).map (fun n => n.function_base.isSome)).getD false

/-- node ids referenced by a program's actions (the action nodes and all
their children). -/
def refIds (p : ExpressionActions) : List Nat :=
  p.actions.map (fun a => a.node)
    ++ (p.actions.map (fun a => nodeChildrenAt p a.node)).flatten

/-- The claim-side predicate for C9, from the spec's words: the named column
is the output of a function `in` or `globalIn` whose right-hand side (second
child) is a COLUMN node carrying a fully constructed, empty set. -/
def alwaysFalseSpec (p : ExpressionActions) (column_name : String) : Bool :=
  p.actions.any (fun a =>
    nodeTypeAt p a.node == some .FUNCTION
    && nodeNameAt p a.node == some column_name
    && (nodeFnNameAt p a.node == some (some "in")
        || nodeFnNameAt p a.node == some (some "globalIn"))
    && (match listGetOpt (nodeChildrenAt p a.node) 1 with
        | some cid =>
          nodeTypeAt p cid == some .COLUMN
            && nodeColumnAt p cid == some (some (.set true 0))
        | none => false))

/-- reachability through `children` links from a set of roots (for C5). -/
inductive Reach (ch : Nat → List Nat) (roots : List Nat) : Nat → Prop where
  | root : ∀ {i}, i ∈ roots → Reach ch roots i
  | step : ∀ {i j}, Reach ch roots i → j ∈ ch i → Reach ch roots j

/-- basic arena well-formedness: children and index entries point into the
arena.  Every builder-produced DAG satisfies this. -/
def WFDag (dag : ActionsDAG) : Prop :=
  (∀ i, i < dag.nodes.length → ∀ c ∈ childrenOf dag i, c < dag.nodes.length)
  ∧ (∀ q ∈ dag.index, q.2 < dag.nodes.length)

instance decWFDag (dag : ActionsDAG) : Decidable (WFDag dag) :=
  inferInstanceAs (Decidable
    ((∀ i, i < dag.nodes.length → ∀ c ∈ childrenOf dag i, c < dag.nodes.length)
      ∧ (∀ q ∈ dag.index, q.2 < dag.nodes.length)))

/-- the roots of the pruning DFS: the index entries of the required names. -/
def rootsOf (dag : ActionsDAG) (required_names : List String) : List Nat :=
  required_names.filterMap (fun n => dag.index.lookup n)

/-- C3/C5 helper: a node's `used_in_result` flag as the linearizer computes
it (`renaming_parent == nullptr && index.count(result_name)`). -/
def usedFlag (dag : ActionsDAG) (c : Nat) : Bool :=
  match dag.get c with
  | some n => n.renaming_parent.isNone && (dag.index.lookup n.result_name).isSome
  | none => false

/-- total number of parent slots of node `c`: its multiplicity as a child
over all live nodes (what the init loop stores in `parents`). -/
def totalParents (dag : ActionsDAG) (c : Nat) : Nat :=
  ((List.range dag.nodes.length).map (fun i =>
    match dag.get i with
    | some n => n.children.count c
    | none => 0)).sum

def childrenOfAction (p : ExpressionActions) (a : Action) : List Nat :=
  ((p.getNodeOpt a.node).map (fun n => n.children)).getD []

/-- number of consumptions of child `c` by the first `j` actions. -/
def consumedBefore (p : ExpressionActions) (j : Nat) (c : Nat) : Nat :=
  (((p.actions.take j).map (fun a => (childrenOfAction p a).count c)).sum)

/-! ### Concrete programs for the claims' witnesses and counterexamples -/

/-- a constant-foldable function whose folded value records the row count it
was executed at (to observe the folding row count, C2). -/
def probeResolver : FunctionOverloadResolver :=
  { name := "probe",
    build := fun _ =>
      { name := "probe", resultType := .scalar "Int32",
        deterministic := true, suitableForConstantFolding := true,
        exec := fun _ _ num_rows _ => .const 1 (.int num_rows) } }

def c2dag : Except Err (ActionsDAG × Nat) := do
  let d0 : ActionsDAG := {}
  let (d1, _) ← d0.addColumn ⟨some (.const 3 (.int 7)), some (.scalar "Int32"), "c"⟩
  d1.addFunction probeResolver ["c"] "y" ⟨{}⟩

def c2col : Option (Option Column) :=
  match c2dag with
  | .ok (d, i) => (d.get i).map (fun n => n.column)
  | .error _ => none

/-- the DAG holding just the size-3 constant column `c` (what `addColumn`
above produces). -/
def c2base : ActionsDAG :=
  { nodes := [some { type := .COLUMN, result_name := "c",
                     result_type := some (.scalar "Int32"),
                     column := some (.const 3 (.int 7)) }],
    index := [("c", 0)] }

def c2args : List ColumnWithTypeAndName :=
  [⟨some (.const 3 (.int 7)), some (.scalar "Int32"), ""⟩]

/-- the folding premises observed on the C2 input: every argument is a
materialized constant, the function is suitable for constant folding, and it
is deterministic. -/
def c2premises : Option (Bool × Bool × Bool) :=
  match c2base.gatherFunctionArguments ["c"] with
  | .ok (_, args, _, allc) =>
    some (allc, (probeResolver.build args).suitableForConstantFolding,
          (probeResolver.build args).deterministic)
  | .error _ => none

/-- a plain (non-foldable) unary function. -/
def idResolver : FunctionOverloadResolver :=
  { name := "f",
    build := fun _ =>
      { name := "f", resultType := .scalar "Int32",
        exec := fun _ _ n _ => .const n (.int 0) } }

def c3prog : Except Err ExpressionActions := do
  let d0 : ActionsDAG := {}
  let (d1, _) ← d0.addInput "x" (.scalar "Int32")
  let (d2, _) ← d1.addFunction idResolver ["x"] "a" ⟨{}⟩
  let (d3, _) ← d2.addFunction idResolver ["a"] "b" ⟨{}⟩
  let d4 ← d3.removeUnusedActions ["b"]
  d4.buildExpressions

/-- the DAG of the C3 pipeline just before `buildExpressions` (for the
amended claim's witness). -/
def c3dag : ActionsDAG :=
  match (do
    let d0 : ActionsDAG := {}
    let (d1, _) ← d0.addInput "x" (.scalar "Int32")
    let (d2, _) ← d1.addFunction idResolver ["x"] "a" ⟨{}⟩
    let (d3, _) ← d2.addFunction idResolver ["a"] "b" ⟨{}⟩
    d3.removeUnusedActions ["b"] : Except Err ActionsDAG) with
  | .ok d => d
  | .error _ => {}

/-- (remove tag of the only argument of the first action, result slot of the
second action, slot count) of the C3 program. -/
def c3info : Option (Bool × Nat × Nat) :=
  match c3prog with
  | .ok p =>
    match p.actions with
    | [a1, a2] =>
      match a1.arguments with
      | [arg] => some (arg.remove, a2.result_position, p.num_columns)
      | _ => none
    | _ => none
  | .error _ => none

def c6ctx : Context := ⟨{ max_temporary_columns := 5 }⟩

def c6result : Except Err ExpressionActions := do
  let d0 : ActionsDAG := {}
  let (d, _) ← d0.addInput "x" (.scalar "Int32")
  let (d, _) ← d.addFunction idResolver ["x"] "y1" c6ctx
  let (d, _) ← d.addFunction idResolver ["x"] "y2" c6ctx
  let (d, _) ← d.addFunction idResolver ["x"] "y3" c6ctx
  let (d, _) ← d.addFunction idResolver ["x"] "y4" c6ctx
  let (d, _) ← d.addFunction idResolver ["x"] "y5" c6ctx
  let (d, _) ← d.addFunction idResolver ["x"] "y6" c6ctx
  let (d, _) ← d.addFunction idResolver ["x"] "y7" c6ctx
  let (d, _) ← d.addFunction idResolver ["x"] "y8" c6ctx
  let (d, _) ← d.addFunction idResolver ["x"] "y9" c6ctx
  let (d, _) ← d.addFunction idResolver ["x"] "y10" c6ctx
  d.buildExpressions

def c6errCode : Option ErrorCode :=
  match c6result with
  | .error e => some e.code
  | .ok _ => none

def c6errMsg : Option String :=
  match c6result with
  | .error e => some e.message
  | .ok _ => none

def c4dag : Except Err ActionsDAG := do
  let d0 : ActionsDAG := {}
  let (d, _) ← d0.addInput "arr" (.array (.scalar "Int32"))
  let (d, _) ← d.addInput "tag" (.scalar "String")
  let (d, _) ← d.addArrayJoin "arr" "e" ""
  d.removeUnusedActions ["e", "tag"]

def c4block : Block :=
  ⟨[⟨some (.full [.arr [.int 1, .int 2], .arr [], .arr [.int 3]]),
     some (.array (.scalar "Int32")), "arr"⟩,
    ⟨some (.full [.str "x", .str "y", .str "z"]), some (.scalar "String"), "tag"⟩]⟩

def c4run : Except Err Block := do
  let d ← c4dag
  let p ← d.buildExpressions
  p.execute c4block false

def c4expected : Block :=
  ⟨[⟨some (.full [.str "x", .str "x", .str "z"]), some (.scalar "String"), "tag"⟩,
    ⟨some (.full [.int 1, .int 2, .int 3]), some (.scalar "Int32"), "e"⟩]⟩

def c4numRows : Option Nat := do
  let d ← (c4dag).toOption
  let p ← d.buildExpressions.toOption
  let (ctx, _) ← (p.executeCtx c4block false).toOption
  some ctx.num_rows

/-- a tiny standalone ARRAY_JOIN program for exercising `executeAction`. -/
def c4node : Node :=
  { type := .ARRAY_JOIN, result_name := "e", result_type := some (.scalar "Int32"),
    children := [0] }

def c4p : ExpressionActions :=
  { nodes := [some c4node], actions := [⟨0, [⟨0, true⟩], 1, true⟩], num_columns := 2 }

def c4action : Action := ⟨0, [⟨0, true⟩], 1, true⟩

def c4kc : ColumnWithTypeAndName :=
  ⟨some (.full [.arr [.int 1], .arr [.int 2, .int 3]]), some (.array (.scalar "Int32")), "arr"⟩

def c4ctx : ExecutionContext := ⟨[], [c4kc, emptyCWT], 2⟩

def inFB : FunctionBase :=
  { name := "in", resultType := .scalar "UInt8",
    exec := fun _ _ n _ => .const n (.int 0) }

def c9p : ExpressionActions :=
  { nodes := [some { type := .INPUT, result_name := "k", result_type := some (.scalar "Int32") },
              some { type := .COLUMN, result_name := "s", column := some (.set true 0) },
              some { type := .FUNCTION, result_name := "in(k, s)", children := [0, 1],
                     function_base := some inFB, func := some inFB.exec }],
    actions := [⟨1, [], 1, true⟩, ⟨2, [⟨0, false⟩, ⟨1, false⟩], 2, true⟩],
    required_columns := [("k", some (.scalar "Int32"))],
    num_columns := 3 }

def c1prog : ExpressionActions :=
  { nodes := [some { type := .INPUT, result_name := "x", result_type := some (.scalar "Int32") },
              some { type := .COLUMN, result_name := "c", result_type := some (.scalar "Int32"),
                     column := some (.const 1 (.int 5)) }],
    actions := [⟨1, [], 1, true⟩],
    required_columns := [("x", some (.scalar "Int32"))],
    sample_block := ⟨[⟨some (.const 1 (.int 5)), some (.scalar "Int32"), "c"⟩]⟩,
    num_columns := 2 }

def c1block : Block := ⟨[⟨some (.full [.int 10]), some (.scalar "Int32"), "x"⟩]⟩

def c5dag : ActionsDAG :=
  { nodes := [some { type := .INPUT, result_name := "x", result_type := some (.scalar "Int32") },
              some { type := .ALIAS, result_name := "a", result_type := some (.scalar "Int32"),
                     children := [0] },
              some { type := .INPUT, result_name := "z", result_type := some (.scalar "Int32") }],
    index := [("x", 0), ("a", 1), ("z", 2)] }

def c7dag : ActionsDAG :=
  { nodes := [some { type := .INPUT, result_name := "x", result_type := some (.scalar "Int32") }],
    index := [("x", 0)] }

def c7newNode : Node :=
  { type := .ALIAS, result_name := "x", result_type := some (.scalar "Int32"), children := [0] }

def c8a : ExpressionAction := { type := .REMOVE_COLUMN }

def c8b : ExpressionAction := { type := .ADD_ALIASES }

/-- two distinct COPY_COLUMN actions whose fields compare equal under
`operator==` (their added columns differ but share a class name). -/
def c8c : ExpressionAction :=
  { type := .COPY_COLUMN, source_name := "s", result_name := "r",
    added_column := some (.full []) }

def c8d : ExpressionAction :=
  { type := .COPY_COLUMN, source_name := "s", result_name := "r",
    added_column := some (.full [.int 1]) }

/-! ## Theorems -/

/-! ### List infrastructure -/

theorem listGetOpt_eq_get? (l : List α) (i : Nat) : listGetOpt l i = l.get? i := by
  induction l generalizing i with
  | nil => cases i <;> rfl
  | cons x xs ih => cases i with
    | zero => rfl
    | succ n => simpa [listGetOpt] using ih n

theorem listGetOpt_lt_length {l : List α} {i : Nat} {a : α}
    (h : listGetOpt l i = some a) : i < l.length := by
  rw [listGetOpt_eq_get?] at h
  exact List.get?_eq_some.mp h |>.1

theorem listGetOpt_is_some_of_lt {l : List α} {i : Nat} (h : i < l.length) :
    ∃ a, listGetOpt l i = some a := by
  rw [listGetOpt_eq_get?]
  exact List.get?_eq_get h ▸ ⟨l.get ⟨i, h⟩, rfl⟩

theorem listGetOpt_append_right (l : List α) (a : α) :
    listGetOpt (l ++ [a]) l.length = some a := by
  induction l with
  | nil => rfl
  | cons x xs ih => simpa [listGetOpt] using ih

theorem listGetOpt_append_left (l l' : List α) {i : Nat} (h : i < l.length) :
    listGetOpt (l ++ l') i = listGetOpt l i := by
  induction l generalizing i with
  | nil => simp at h
  | cons x xs ih =>
    cases i with
    | zero => rfl
    | succ n => exact ih (Nat.lt_of_succ_lt_succ h)

theorem listGetOpt_map (f : α → β) (l : List α) (i : Nat) :
    listGetOpt (l.map f) i = (listGetOpt l i).map f := by
  induction l generalizing i with
  | nil => cases i <;> rfl
  | cons x xs ih => cases i with
    | zero => rfl
    | succ n => simpa [listGetOpt] using ih n

theorem listModify_length (l : List α) (i : Nat) (f : α → α) :
    (listModify l i f).length = l.length := by
  induction l generalizing i with
  | nil => rfl
  | cons x xs ih => cases i with
    | zero => rfl
    | succ n => simpa [listModify] using ih n

theorem listModify_get_self {l : List α} {i : Nat} (f : α → α) (h : i < l.length) :
    listGetOpt (listModify l i f) i = (listGetOpt l i).map f := by
  induction l generalizing i with
  | nil => simp at h
  | cons x xs ih => cases i with
    | zero => rfl
    | succ n => exact ih (Nat.lt_of_succ_lt_succ h)

theorem listModify_get_ne {l : List α} {i j : Nat} (f : α → α) (h : i ≠ j) :
    listGetOpt (listModify l i f) j = listGetOpt l j := by
  induction l generalizing i j with
  | nil => rfl
  | cons x xs ih =>
    cases i with
    | zero => cases j with
      | zero => exact absurd rfl h
      | succ m => rfl
    | succ n => cases j with
      | zero => rfl
      | succ m => exact ih (fun hnm => h (by rw [hnm]))

theorem listSet_length (l : List α) (i : Nat) (a : α) :
    (listSet l i a).length = l.length := by
  induction l generalizing i with
  | nil => rfl
  | cons x xs ih => cases i with
    | zero => rfl
    | succ n => simpa [listSet] using ih n

theorem listSet_get_self {l : List α} {i : Nat} (a : α) (h : i < l.length) :
    listGetOpt (listSet l i a) i = some a := by
  induction l generalizing i with
  | nil => simp at h
  | cons x xs ih => cases i with
    | zero => rfl
    | succ n => exact ih (Nat.lt_of_succ_lt_succ h)

theorem listSet_get_ne {l : List α} {i j : Nat} (a : α) (h : i ≠ j) :
    listGetOpt (listSet l i a) j = listGetOpt l j := by
  induction l generalizing i j with
  | nil => rfl
  | cons x xs ih =>
    cases i with
    | zero => cases j with
      | zero => exact absurd rfl h
      | succ m => rfl
    | succ n => cases j with
      | zero => rfl
      | succ m => exact ih (fun hnm => h (by rw [hnm]))

theorem listResize_length (l : List α) (n : Nat) (pad : α) :
    (listResize l n pad).length = n := by
  simp [listResize]
  omega

theorem findSome?_eq_some_imp {l : List α} {f : α → Option β} {b : β}
    (h : l.findSome? f = some b) : ∃ a ∈ l, f a = some b := by
  induction l with
  | nil => simp [List.findSome?] at h
  | cons x xs ih =>
    simp only [List.findSome?] at h
    cases hx : f x with
    | some c =>
      rw [hx] at h
      exact ⟨x, List.mem_cons_self x xs, hx.trans h⟩
    | none =>
      rw [hx] at h
      obtain ⟨a, ha, hfa⟩ := ih h
      exact ⟨a, List.mem_cons_of_mem x ha, hfa⟩

theorem findSome?_isSome_of_mem {l : List α} {f : α → Option β} {a : α} {b : β}
    (hmem : a ∈ l) (hfa : f a = some b) : ∃ c, l.findSome? f = some c := by
  induction l with
  | nil => simp at hmem
  | cons x xs ih =>
    simp only [List.findSome?]
    cases hx : f x with
    | some c => exact ⟨c, rfl⟩
    | none =>
      rcases List.mem_cons.mp hmem with heq | hmem'
      · subst heq; rw [hx] at hfa; exact absurd hfa (by simp)
      · exact ih hmem'

theorem lookup_mem {l : List (String × Nat)} {k : String} {v : Nat}
    (h : l.lookup k = some v) : (k, v) ∈ l := by
  induction l with
  | nil => simp [List.lookup] at h
  | cons x xs ih =>
    simp only [List.lookup] at h
    cases hk : (k == x.1) with
    | true =>
      rw [hk] at h
      have hv : x.2 = v := Option.some.inj h
      have hke : k = x.1 := eq_of_beq hk
      obtain ⟨x1, x2⟩ := x
      simp only at hke hv
      subst hke
      subst hv
      exact List.mem_cons_self _ _
    | false =>
      rw [hk] at h
      exact List.mem_cons_of_mem _ (ih h)

/-! ### C8: legacy action equality vs hash -/

/-- C8 counterexample: `operator==` never compares the action kind, so a
REMOVE_COLUMN action with empty fields compares equal to an ADD_ALIASES
action with empty fields, yet the hash mixes the kind in and is fed
different data for the two. -/
theorem C8_counterexample :
    eaEq c8a c8b = true ∧ actionHash c8a ≠ actionHash c8b := by decide

/-- C8 (amended): for two actions of the same kind, `a == b` implies
`ActionHash(a) = ActionHash(b)` (equivalently, different hashes imply the
actions differ). -/
theorem C8_amended (a b : ExpressionAction) (hty : a.type = b.type)
    (heq : eaEq a b = true) : actionHash a = actionHash b := by
  obtain ⟨ta, sna, rna, rta, aca, fba, ana, tja, pja, ica⟩ := a
  obtain ⟨tb, snb, rnb, rtb, acb, fbb, anb, tjb, pjb, icb⟩ := b
  simp only at hty
  subst hty
  simp only [eaEq, sameJoin, Bool.and_eq_true, beq_iff_eq] at heq
  obtain ⟨⟨⟨⟨⟨⟨⟨⟨hrt, hfb⟩, hac⟩, hsn⟩, hrn⟩, han⟩, htj⟩, hpj⟩, hic⟩ := heq
  subst hsn; subst hrn; subst han; subst hpj; subst hic; subst htj
  cases ta <;>
    cases rta <;> cases rtb <;>
    cases aca <;> cases acb <;>
    cases fba <;> cases fbb <;>
    simp_all [actionHash]

/-- C8 witness for the amended theorem: two actions that differ (their added
columns are different) but compare equal, with equal hash transcripts. -/
theorem C8_amended_witness :
    c8c.type = c8d.type ∧ eaEq c8c c8d = true ∧ actionHash c8c = actionHash c8d :=
  ⟨rfl, by decide, C8_amended c8c c8d rfl (by decide)⟩

/-! ### index lemmas -/

theorem indexSet_lookup_self (ix : List (String × Nat)) (k : String) (v : Nat) :
    (indexSet ix k v).lookup k = some v := by
  simp [indexSet, List.lookup]

theorem lookup_filter_ne {ix : List (String × Nat)} {k k' : String} (h : k' ≠ k) :
    (ix.filter (fun p => p.1 != k)).lookup k' = ix.lookup k' := by
  induction ix with
  | nil => rfl
  | cons p ps ih =>
    rw [List.filter_cons]
    by_cases hp : p.1 = k
    · rw [if_neg (by simp [hp])]
      have h2 : (k' == p.1) = false := by
        simp only [beq_eq_false_iff_ne, ne_eq]
        rw [hp]
        exact h
      simp only [List.lookup, h2]
      exact ih
    · rw [if_pos (by simp [hp])]
      simp only [List.lookup]
      cases hk : (k' == p.1) with
      | true => rfl
      | false => exact ih

theorem indexSet_lookup_ne (ix : List (String × Nat)) {k k' : String} (v : Nat)
    (h : k' ≠ k) : (indexSet ix k v).lookup k' = ix.lookup k' := by
  simp only [indexSet, List.lookup]
  rw [show (k' == k) = false by simpa using h]
  exact lookup_filter_ne h

/-! ### C7: addNode duplicate handling -/

/-- C7: adding a node (via `addNode`, hence each builder) fails with
DUPLICATE_COLUMN exactly when a node of the same result name is in the index
and replacement is not permitted; with `can_replace = true` and an existing
name, the new node takes the next arena slot, the index is rewired to it,
and the displaced node's `renaming_parent` is set to the new node. -/
theorem C7_addNode (dag : ActionsDAG) (node : Node) (can_replace : Bool)
    (hid : ∀ oldId, dag.index.lookup node.result_name = some oldId →
      oldId < dag.nodes.length) :
    ((∃ e, dag.addNode node can_replace = .error e) ↔
      ((dag.index.lookup node.result_name).isSome = true ∧ can_replace = false))
    ∧ (∀ e, dag.addNode node can_replace = .error e → e.code = .DUPLICATE_COLUMN)
    ∧ (∀ oldId, dag.index.lookup node.result_name = some oldId → can_replace = true →
        ∃ dag', dag.addNode node can_replace = .ok (dag', dag.nodes.length)
          ∧ dag'.index.lookup node.result_name = some dag.nodes.length
          ∧ (∀ n, dag.get oldId = some n →
              dag'.get oldId = some { n with renaming_parent := some dag.nodes.length })
          ∧ dag'.get dag.nodes.length = some node) := by
  cases hl : dag.index.lookup node.result_name with
  | none =>
    have hstep : dag.addNode node can_replace = .ok ({ dag with nodes := dag.nodes ++ [some node], index := indexSet dag.index node.result_name dag.nodes.length }, dag.nodes.length) := by
      simp [ActionsDAG.addNode, hl]
    refine ⟨?_, ?_, ?_⟩
    · constructor
      · rintro ⟨e, he⟩
        rw [hstep] at he
        exact Except.noConfusion he
      · rintro ⟨hsome, -⟩
        simp at hsome
    · intro e he
      rw [hstep] at he
      exact Except.noConfusion he
    · intro oldId h
      exact Option.noConfusion h
  | some oldId =>
    have hlt : oldId < dag.nodes.length := hid oldId hl
    cases can_replace with
    | false =>
      have hstep : dag.addNode node false = .error
          ⟨.DUPLICATE_COLUMN, "Column '" ++ node.result_name ++ "' already exists"⟩ := by
        simp [ActionsDAG.addNode, hl]
      refine ⟨?_, ?_, ?_⟩
      · constructor
        · intro _
          exact ⟨rfl, rfl⟩
        · intro _
          exact ⟨_, hstep⟩
      · intro e he
        rw [hstep] at he
        rw [← Except.error.inj he]
      · intro _ _ hcr
        exact Bool.noConfusion hcr
    | true =>
      have hstep : dag.addNode node true = .ok ({ dag with nodes := listModify (dag.nodes ++ [some node]) oldId (Option.map (fun n => { n with renaming_parent := some dag.nodes.length })), index := indexSet dag.index node.result_name dag.nodes.length }, dag.nodes.length) := by
        simp [ActionsDAG.addNode, hl]
      refine ⟨?_, ?_, ?_⟩
      · constructor
        · rintro ⟨e, he⟩
          rw [hstep] at he
          exact Except.noConfusion he
        · rintro ⟨-, hfalse⟩
          exact Bool.noConfusion hfalse
      · intro e he
        rw [hstep] at he
        exact Except.noConfusion he
      · intro oldId' h hcr
        have hold : oldId = oldId' := Option.some.inj h
        subst hold
        refine ⟨_, hstep, ?_, ?_, ?_⟩
        · exact indexSet_lookup_self _ _ _
        · intro n hn
          have h1 : listGetOpt (dag.nodes ++ [some node]) oldId = listGetOpt dag.nodes oldId :=
            listGetOpt_append_left _ _ hlt
          have h2 : listGetOpt dag.nodes oldId = some (some n) := by
            simp only [ActionsDAG.get] at hn
            exact Option.join_eq_some.mp hn
          simp only [ActionsDAG.get]
          rw [listModify_get_self _ (by
            rw [List.length_append]
            simpa using Nat.lt_succ_of_lt hlt)]
          rw [h1, h2]
          rfl
        · have hne : oldId ≠ dag.nodes.length := Nat.ne_of_lt hlt
          simp only [ActionsDAG.get]
          rw [listModify_get_ne _ hne, listGetOpt_append_right]
          rfl

/-- C7 witness: replacing the only node `x` in a one-node DAG rewires the
index to the new node (id 1) and back-links the displaced node. -/
theorem C7_witness :
    ∃ dag', c7dag.addNode c7newNode true = .ok (dag', 1)
      ∧ dag'.index.lookup "x" = some 1
      ∧ (∀ n, c7dag.get 0 = some n →
          dag'.get 0 = some { n with renaming_parent := some 1 }) := by
  have hid : ∀ oldId, c7dag.index.lookup "x" = some oldId → oldId < c7dag.nodes.length := by
    intro oldId h
    have h0 : c7dag.index.lookup "x" = some 0 := rfl
    rw [h0] at h
    rw [← Option.some.inj h]
    decide
  obtain ⟨dag', hok, hix, hrp, -⟩ := (C7_addNode c7dag c7newNode true hid).2.2 0 rfl rfl
  exact ⟨dag', hok, hix, hrp⟩

/-! ### C2: constant folding in addFunction -/

theorem getNode_congr {d1 d2 : ActionsDAG} (h1 : d1.nodes = d2.nodes)
    (h2 : d1.index = d2.index) (name : String) : d1.getNode name = d2.getNode name := by
  simp only [ActionsDAG.getNode, ActionsDAG.get, h1, h2]

theorem gather_congr {d1 d2 : ActionsDAG} (h1 : d1.nodes = d2.nodes)
    (h2 : d1.index = d2.index) (names : List String) :
    d1.gatherFunctionArguments names = d2.gatherFunctionArguments names := by
  induction names with
  | nil => rfl
  | cons n ns ih =>
    simp only [ActionsDAG.gatherFunctionArguments, getNode_congr h1 h2, ih]

theorem addNode_get_new {dag : ActionsDAG} {node : Node} {r : Bool} {dag' : ActionsDAG}
    {id : Nat} (h : dag.addNode node r = .ok (dag', id)) :
    ∃ m, dag'.get id = some m ∧ m.column = node.column := by
  cases hl : dag.index.lookup node.result_name with
  | none =>
    simp [ActionsDAG.addNode, hl] at h
    obtain ⟨hd, hi⟩ := h
    subst hd
    subst hi
    refine ⟨node, ?_, rfl⟩
    simp only [ActionsDAG.get]
    rw [listGetOpt_append_right]
    rfl
  | some oldId =>
    cases r with
    | false => simp [ActionsDAG.addNode, hl] at h
    | true =>
      simp [ActionsDAG.addNode, hl] at h
      obtain ⟨hd, hi⟩ := h
      subst hd
      subst hi
      by_cases hsame : oldId = dag.nodes.length
      · refine ⟨{ node with renaming_parent := some dag.nodes.length }, ?_, rfl⟩
        simp only [ActionsDAG.get]
        subst hsame
        rw [listModify_get_self _ (by simp), listGetOpt_append_right]
        rfl
      · refine ⟨node, ?_, rfl⟩
        simp only [ActionsDAG.get]
        rw [listModify_get_ne _ hsame, listGetOpt_append_right]
        rfl

/-- C2 counterexample: with a constant argument column of size 3 (all
folding premises satisfied), the folding evaluation runs at row count 3, not
1: the probe function records the row count it was called with, and the
attached constant carries 3. -/
theorem C2_counterexample :
    c2premises = some (true, true, true)
    ∧ c2col = some (some (.const 1 (.int 3)))
    ∧ (Column.const 1 (.int 3)) ≠ (Column.const 1 (.int 1)) := by decide

/-- C2 (amended): under the stated premises the function is evaluated with
`dry_run = true` at row count equal to the size of the first argument's
column (`foldRowCount`; 0 when there are no arguments), and if that result
is a constant column it is attached to the node's `column` (resized to 1 if
it came out empty, `foldedConstant`). -/
theorem C2_amended (dag0 : ActionsDAG) (function : FunctionOverloadResolver)
    (argument_names : List String) (result_name0 : String) (context : Context)
    (dag' : ActionsDAG) (id : Nat) (children : List Nat)
    (args : List ColumnWithTypeAndName) (fold : Bool)
    (hg : dag0.gatherFunctionArguments argument_names = .ok (children, args, fold, true))
    (hs : (function.build args).suitableForConstantFolding = true)
    (hd : context.settings.compile_expressions = false
          ∨ (function.build args).deterministic = true)
    (hconst : isColumnConst ((function.build args).exec args (function.build args).resultType
        (foldRowCount args) true) = true)
    (hok : dag0.addFunction function argument_names result_name0 context = .ok (dag', id)) :
    ∃ n, dag'.get id = some n
      ∧ n.column = some (foldedConstant (function.build args) args) := by
  simp only [ActionsDAG.addFunction, bind, Except.bind] at hok
  have hgu : ({ dag0 with max_temporary_columns := context.settings.max_temporary_columns, max_temporary_non_const_columns := context.settings.max_temporary_non_const_columns } : ActionsDAG).gatherFunctionArguments argument_names = .ok (children, args, fold, true) := by
    refine Eq.trans (gather_congr ?_ ?_ argument_names) hg
    · rfl
    · rfl
  have hcond : (!context.settings.compile_expressions
      || (function.build args).deterministic) = true := by
    rcases hd with h | h
    · rw [h]; rfl
    · rw [h]; simp
  rw [hgu] at hok
  dsimp only at hok
  simp only [hs, hcond, hconst, Bool.and_true, Bool.true_and, eq_self_iff_true, if_true] at hok
  obtain ⟨m, hm, hcol⟩ := addNode_get_new hok
  refine ⟨m, hm, ?_⟩
  rw [hcol]
  rfl

/-- C2 witness for the amended theorem: the probe program's folded constant
is `const 1 (int 3)` — the dry run at the first argument's size 3. -/
theorem C2_amended_witness :
    ∃ dag' id n, c2base.addFunction probeResolver ["c"] "y" ⟨{}⟩ = .ok (dag', id)
      ∧ dag'.get id = some n ∧ n.column = some (.const 1 (.int 3)) := by
  obtain ⟨dag', id, hok⟩ :
      ∃ d i, c2base.addFunction probeResolver ["c"] "y" ⟨{}⟩ = .ok (d, i) := ⟨_, _, rfl⟩
  obtain ⟨n, hn, hcol⟩ := C2_amended c2base probeResolver ["c"] "y" ⟨{}⟩ dag' id
    [0] c2args true rfl rfl (Or.inl rfl) rfl hok
  exact ⟨dag', id, n, hok, hn, by rw [hcol]; rfl⟩

/-! ### C6 / C10: resource limits -/

/-- C6: the slot-pressure program (ten independent function applications
under `max_temporary_columns = 5`) does fail with
TOO_MANY_TEMPORARY_COLUMNS, but — because `buildExpressions` swaps the node
storage into the program and clears the DAG *before* rendering the error —
the message lists no column names at all (the name list between the colon
and the period is empty). -/
theorem C6_limit_fires_with_empty_name_list :
    c6errCode = some .TOO_MANY_TEMPORARY_COLUMNS
    ∧ c6errMsg = some "Too many temporary columns: . Maximum: 5" := ⟨rfl, rfl⟩

theorem collectArguments_error_code {data : List BEData} {cs : List Nat} {e : Err}
    (h : collectArguments data cs = .error e) : e.code = .LOGICAL_ERROR := by
  induction cs generalizing data with
  | nil => simp [collectArguments] at h
  | cons c cs ih =>
    simp only [collectArguments] at h
    cases hp : (getData data c).position with
    | none =>
      rw [hp] at h
      cases h
      rfl
    | some pos =>
      rw [hp] at h
      simp only [bind, Except.bind] at h
      cases hrec : collectArguments (dataSet data c
          (fun dd => { dd with num_created_parents := (getData data c).num_created_parents + 1 }))
          cs with
      | error e' =>
        rw [hrec] at h
        cases h
        exact ih hrec
      | ok v =>
        rw [hrec] at h
        cases h

theorem processNode_error_code {nodes : List (Option Node)} {x : Nat} {st : BuildState}
    {e : Err} (h : processNode nodes x st = .error e) : e.code = .LOGICAL_ERROR := by
  simp only [processNode] at h
  cases hn : (listGetOpt nodes x).join with
  | none =>
    rw [hn] at h
    cases h
    rfl
  | some node =>
    rw [hn] at h
    simp only [bind, Except.bind] at h
    cases hc : collectArguments (dataSet st.data x
        (fun d => { d with position := some (match st.free_positions with
          | [] => (st.num_columns, st.num_columns + 1, [])
          | p :: ps => (p, st.num_columns, ps)).1 })) node.children with
    | error e' =>
      rw [hc] at h
      cases h
      exact collectArguments_error_code hc
    | ok v =>
      rw [hc] at h
      cases h

theorem buildLoop_error_code {nodes : List (Option Node)} {fuel : Nat} {st : BuildState}
    {e : Err} (h : buildLoop nodes fuel st = .error e) : e.code = .LOGICAL_ERROR := by
  induction fuel generalizing st with
  | zero => simp [buildLoop] at h
  | succ fuel ih =>
    simp only [buildLoop] at h
    cases hp : pickReady st with
    | none =>
      rw [hp] at h
      cases h
    | some v =>
      rw [hp] at h
      simp only [bind, Except.bind] at h
      cases hs : processNode nodes v.1 v.2 with
      | error e' =>
        rw [hs] at h
        cases h
        exact processNode_error_code hs
      | ok st2 =>
        rw [hs] at h
        exact ih h

/-- C10: a zero budget disables the corresponding check: with
`max_temporary_columns = 0`, `buildExpressions` never raises
TOO_MANY_TEMPORARY_COLUMNS, and with `max_temporary_non_const_columns = 0`,
`checkLimits` always succeeds. -/
theorem C10_zero_disables (dag : ActionsDAG) (p : ExpressionActions)
    (ctx : ExecutionContext) :
    (dag.max_temporary_columns = 0 →
      ∀ e, dag.buildExpressions = .error e → e.code ≠ .TOO_MANY_TEMPORARY_COLUMNS)
    ∧ (p.max_temporary_non_const_columns = 0 → p.checkLimits ctx = .ok ()) := by
  constructor
  · intro hz e he
    simp only [ActionsDAG.buildExpressions, bind, Except.bind] at he
    cases hb : buildLoop dag.nodes (2 * dag.nodes.length + 1) (initBuildState dag) with
    | error e' =>
      rw [hb] at he
      cases he
      rw [buildLoop_error_code hb]
      intro hcontra
      cases hcontra
    | ok st =>
      rw [hb] at he
      rw [hz] at he
      simp at he
  · intro hz
    simp [ExpressionActions.checkLimits, hz]

/-- C10 witness: the empty DAG and the empty program both have zero budgets;
neither check can fire. -/
theorem C10_witness :
    (∀ e, ({} : ActionsDAG).buildExpressions = .error e →
        e.code ≠ .TOO_MANY_TEMPORARY_COLUMNS)
    ∧ ({} : ExpressionActions).checkLimits ⟨[], [], 0⟩ = .ok () :=
  ⟨(C10_zero_disables {} {} ⟨[], [], 0⟩).1 rfl,
   (C10_zero_disables {} {} ⟨[], [], 0⟩).2 rfl⟩

/-! ### C3 counterexample -/

/-- C3 counterexample: in the program x; a = f(x); b = f(a) with only `b`
required, the consumed argument of the first action *is* tagged
`remove = true`, yet the node that becomes ready afterwards takes the fresh
slot 2 — not a slot popped from the free stack (which would be slot 0) —
and the slot count ends at 3, one per node, rather than 2.  Nothing is ever
pushed onto the free-slot stack. -/
theorem C3_counterexample :
    c3info = some (true, 2, 3) ∧ (2 ≠ 0 ∧ 2 ≠ 1) ∧ 3 ≠ 2 := by decide

/-! ### C4: ARRAY_JOIN execution -/

/-- C4: executing an ARRAY_JOIN action whose argument slot holds (after
constant materialization) a true array column replaces every other
non-empty slot column and every original input column by its
`replicate(offsets)` (the argument slot is cleared first when tagged
removable), sets the output slot to the array's flat element column with
the array's element type, and updates `num_rows` to the new total length;
a non-array materialized column fails with TYPE_MISMATCH.  The concrete
scenario `arr=[[1,2],[],[3]], tag=["x","y","z"]` with `required=["e","tag"]`
yields `e=[1,2,3]`, `tag=["x","x","z"]`, `num_rows = 3`. -/
theorem C4_array_join :
    (∀ (p : ExpressionActions) (action : Action) (ctx : ExecutionContext) (dry : Bool)
       (node : Node) (front : Argument) (rest : List Argument)
       (kc : ColumnWithTypeAndName) (c0 : Column),
      p.getNodeOpt action.node = some node → node.type = .ARRAY_JOIN →
      action.arguments = front :: rest →
      listGetOpt ctx.columns front.pos = some kc →
      kc.column = some c0 →
      ((c0.convertToFullColumnIfConst.asArrayRows? = none →
        executeAction p action ctx dry =
          .error ⟨.TYPE_MISMATCH, "ARRAY JOIN of not array: " ++ node.result_name⟩)
      ∧ (∀ rows elemTy, c0.convertToFullColumnIfConst.asArrayRows? = some rows →
          kc.type = some (.array elemTy) →
          action.result_position < ctx.columns.length →
          ∃ ctx', executeAction p action ctx dry = .ok ctx'
            ∧ ctx'.num_rows = rows.flatten.length
            ∧ ctx'.input_columns = replicateColumns ctx.input_columns (arrayOffsets rows)
            ∧ (∀ i, i ≠ action.result_position →
                listGetOpt ctx'.columns i =
                  listGetOpt (replicateColumns (if front.remove then listSet ctx.columns front.pos emptyCWT else ctx.columns) (arrayOffsets rows)) i)
            ∧ (∃ res0, listGetOpt (replicateColumns (if front.remove then listSet ctx.columns front.pos emptyCWT else ctx.columns) (arrayOffsets rows)) action.result_position = some res0
                ∧ listGetOpt ctx'.columns action.result_position = some { res0 with column := some (.full (rows.flatten.map Value.prim)), type := some elemTy }))))
    ∧ c4run = .ok c4expected ∧ c4numRows = some 3 := by
  refine ⟨?_, by rfl, by rfl⟩
  intro p action ctx dry node front rest kc c0 hn ht ha hk hc
  constructor
  · intro hnone
    simp only [executeAction, hn, ht, ha, hk, hc, hnone]
  · intro rows elemTy hrows htype hlt
    have hlen0 : (if front.remove then listSet ctx.columns front.pos emptyCWT else ctx.columns).length = ctx.columns.length := by
      cases front.remove <;> simp [listSet_length]
    have hlen1 : (replicateColumns (if front.remove then listSet ctx.columns front.pos emptyCWT else ctx.columns) (arrayOffsets rows)).length = ctx.columns.length := by
      rw [replicateColumns, List.length_map, hlen0]
    obtain ⟨res0, hres0⟩ := listGetOpt_is_some_of_lt (l := replicateColumns (if front.remove then listSet ctx.columns front.pos emptyCWT else ctx.columns) (arrayOffsets rows)) (hlen1 ▸ hlt)
    refine ⟨⟨replicateColumns ctx.input_columns (arrayOffsets rows), listSet (replicateColumns (if front.remove then listSet ctx.columns front.pos emptyCWT else ctx.columns) (arrayOffsets rows)) action.result_position { res0 with column := some (.full (rows.flatten.map Value.prim)), type := some elemTy }, (Column.full (rows.flatten.map Value.prim)).size⟩, ?_, ?_, rfl, ?_, ⟨res0, hres0, ?_⟩⟩
    · simp only [executeAction, hn, ht, ha, hk, hc, hrows, htype, hres0]
    · simp only [Column.size, List.length_map]
    · intro i hi
      exact listSet_get_ne _ (fun h => hi h.symm)
    · exact listSet_get_self _ (hlen1 ▸ hlt)

/-- C4 witness: a standalone ARRAY_JOIN action on `arr=[[1],[2,3]]` succeeds
with `num_rows = 3` and the flat element column `[1,2,3]` in the output
slot. -/
theorem C4_witness :
    ∃ ctx', executeAction c4p c4action c4ctx false = .ok ctx'
      ∧ ctx'.num_rows = 3
      ∧ listGetOpt ctx'.columns 1 = some { emptyCWT with column := some (.full [.int 1, .int 2, .int 3]), type := some (.scalar "Int32") } := by
  obtain ⟨ctx', hok, hnum, -, -, res0, hres0, hres⟩ :=
    ((C4_array_join.1 c4p c4action c4ctx false c4node ⟨0, true⟩ [] c4kc
        (.full [.arr [.int 1], .arr [.int 2, .int 3]]) rfl rfl rfl rfl rfl).2
      [[.int 1], [.int 2, .int 3]] (.scalar "Int32") rfl rfl (by decide))
  refine ⟨ctx', hok, by rw [hnum]; rfl, ?_⟩
  have hres0' : res0 = emptyCWT := by
    have h0 : listGetOpt (replicateColumns (if (⟨0, true⟩ : Argument).remove then listSet c4ctx.columns (⟨0, true⟩ : Argument).pos emptyCWT else c4ctx.columns) (arrayOffsets [[.int 1], [.int 2, .int 3]])) c4action.result_position = some emptyCWT := by rfl
    rw [h0] at hres0
    exact (Option.some.inj hres0).symm
  show listGetOpt ctx'.columns c4action.result_position = _
  rw [hres, hres0']
  rfl

/-! ### C9: the always-false-column check -/

theorem inScanStep_some {p : ExpressionActions} {cn : String} {a : Action} {s : String}
    (h : inScanStep p cn a = some s) :
    ∃ nd, p.getNodeOpt a.node = some nd ∧ nd.type = .FUNCTION
      ∧ nd.result_name = cn
      ∧ ∃ fb, nd.function_base = some fb ∧ (fb.name = "in" ∨ fb.name = "globalIn")
      ∧ ∃ cid cnode, listGetOpt nd.children 1 = some cid
          ∧ p.getNodeOpt cid = some cnode ∧ s = cnode.result_name := by
  unfold inScanStep at h
  cases hg : p.getNodeOpt a.node with
  | none => rw [hg] at h; exact Option.noConfusion h
  | some nd =>
    rw [hg] at h
    dsimp only at h
    by_cases hcond : (nd.type == NodeType.FUNCTION && nd.function_base.isSome
        && (nd.result_name == cn) && decide (nd.children.length > 1)) = true
    case neg => rw [if_neg hcond] at h; exact Option.noConfusion h
    case pos =>
      rw [if_pos hcond] at h
      simp only [Bool.and_eq_true, beq_iff_eq, decide_eq_true_eq] at hcond
      obtain ⟨⟨⟨hty, hfbs⟩, hrn⟩, hlen⟩ := hcond
      cases hfb : nd.function_base with
      | none => rw [hfb] at hfbs; simp at hfbs
      | some fb =>
        rw [hfb] at h
        cases hcid : listGetOpt nd.children 1 with
        | none => rw [hcid] at h; exact Option.noConfusion h
        | some cid =>
          rw [hcid] at h
          dsimp only at h
          by_cases hin : (fb.name == "in" || fb.name == "globalIn") = true
          case neg => rw [if_neg hin] at h; exact Option.noConfusion h
          case pos =>
            rw [if_pos hin] at h
            cases hcn : p.getNodeOpt cid with
            | none => rw [hcn] at h; exact Option.noConfusion h
            | some cnode =>
              rw [hcn] at h
              dsimp only at h
              refine ⟨nd, rfl, hty, hrn, fb, hfb, ?_, cid, cnode, hcid, hcn,
                (Option.some.inj h).symm⟩
              simpa [Bool.or_eq_true, beq_iff_eq] using hin

theorem inScanStep_of_parts {p : ExpressionActions} {cn : String} {a : Action}
    {nd : Node} {fb : FunctionBase} {cid : Nat} {cnode : Node}
    (hg : p.getNodeOpt a.node = some nd) (hty : nd.type = .FUNCTION)
    (hrn : nd.result_name = cn) (hfb : nd.function_base = some fb)
    (hin : fb.name = "in" ∨ fb.name = "globalIn")
    (hcid : listGetOpt nd.children 1 = some cid)
    (hcn : p.getNodeOpt cid = some cnode) :
    inScanStep p cn a = some cnode.result_name := by
  have hlen : 1 < nd.children.length := listGetOpt_lt_length hcid
  unfold inScanStep
  rw [hg]
  dsimp only
  rw [if_pos (by simp [hty, hfb, hrn, hlen])]
  rw [hfb, hcid]
  dsimp only
  rw [if_pos (by rcases hin with h | h <;> simp [h])]
  rw [hcn]

theorem emptySetColumnStep_parts {p : ExpressionActions} {s : String} {a : Action}
    (h : emptySetColumnStep p s a = true) :
    ∃ nd, p.getNodeOpt a.node = some nd ∧ nd.type = .COLUMN
      ∧ nd.result_name = s ∧ nd.column = some (.set true 0) := by
  unfold emptySetColumnStep at h
  cases hg : p.getNodeOpt a.node with
  | none => rw [hg] at h; exact Bool.noConfusion h
  | some nd =>
    rw [hg] at h
    dsimp only at h
    simp only [Bool.and_eq_true, beq_iff_eq] at h
    obtain ⟨⟨hty, hrn⟩, hcolm⟩ := h
    refine ⟨nd, rfl, hty, hrn, ?_⟩
    cases hc : nd.column with
    | none => rw [hc] at hcolm; simp at hcolm
    | some col =>
      rw [hc] at hcolm
      cases col with
      | full vs => simp at hcolm
      | const n v => simp at hcolm
      | set cr rc =>
        simp only [Bool.and_eq_true, beq_iff_eq] at hcolm
        obtain ⟨hcr, hrc⟩ := hcolm
        rw [hcr, hrc]

theorem emptySetColumnStep_of_parts {p : ExpressionActions} {s : String} {a : Action}
    {nd : Node} (hg : p.getNodeOpt a.node = some nd) (hty : nd.type = .COLUMN)
    (hrn : nd.result_name = s) (hc : nd.column = some (.set true 0)) :
    emptySetColumnStep p s a = true := by
  unfold emptySetColumnStep
  rw [hg]
  dsimp only
  rw [hc]
  simp [hty, hrn]

theorem mem_refIds_node {p : ExpressionActions} {a : Action} (ha : a ∈ p.actions) :
    a.node ∈ refIds p := by
  unfold refIds
  exact List.mem_append_left _ (List.mem_map_of_mem _ ha)

theorem mem_refIds_child {p : ExpressionActions} {a : Action} {nd : Node} {cid : Nat}
    (ha : a ∈ p.actions) (hnd : p.getNodeOpt a.node = some nd)
    (hcid : cid ∈ nd.children) : cid ∈ refIds p := by
  unfold refIds
  refine List.mem_append_right _ ?_
  rw [List.mem_flatten]
  refine ⟨nd.children, ?_, hcid⟩
  have : nodeChildrenAt p a.node = nd.children := by
    simp [nodeChildrenAt, hnd]
  rw [← this]
  exact List.mem_map_of_mem _ ha

/-- C9: `checkColumnIsAlwaysFalse(name)` agrees with the claim's predicate —
the named column is the output of an `in`/`globalIn` whose second child is a
COLUMN node carrying a fully constructed, empty set — on programs whose
referenced nodes have pairwise-distinct, non-empty names and whose COLUMN
nodes all appear as actions (all guaranteed by the linearizer). -/
theorem C9_always_false (p : ExpressionActions) (column_name : String)
    (hdist : ∀ i ∈ refIds p, ∀ j ∈ refIds p, i ≠ j → nodeNameAt p i ≠ nodeNameAt p j)
    (hcol : ∀ i ∈ refIds p, nodeTypeAt p i = some .COLUMN → ∃ b ∈ p.actions, b.node = i)
    (hname : ∀ i ∈ refIds p, nodeNameAt p i ≠ some "") :
    p.checkColumnIsAlwaysFalse column_name = alwaysFalseSpec p column_name := by
  cases hspec : alwaysFalseSpec p column_name with
  | true =>
    obtain ⟨a0, ha0, hpred⟩ := List.any_eq_true.mp hspec
    simp only [Bool.and_eq_true, Bool.or_eq_true, beq_iff_eq] at hpred
    obtain ⟨⟨⟨hty0, hnm0⟩, hfn0⟩, hmatch⟩ := hpred
    cases hcid : listGetOpt (nodeChildrenAt p a0.node) 1 with
    | none => rw [hcid] at hmatch; simp at hmatch
    | some cid =>
      rw [hcid] at hmatch
      simp only [Bool.and_eq_true, beq_iff_eq] at hmatch
      obtain ⟨htyc, hcolc⟩ := hmatch
      simp only [nodeTypeAt] at hty0
      obtain ⟨nd0, hnd0, hty0'⟩ := Option.map_eq_some'.mp hty0
      simp only [nodeNameAt, hnd0, Option.map_some'] at hnm0
      have hnm0' : nd0.result_name = column_name := Option.some.inj hnm0
      have hfb0 : ∃ fb, nd0.function_base = some fb ∧ (fb.name = "in" ∨ fb.name = "globalIn") := by
        rcases hfn0 with h | h <;>
          · simp only [nodeFnNameAt, hnd0, Option.map_some'] at h
            have h2 := Option.some.inj h
            obtain ⟨fb, hfb, hn⟩ := Option.map_eq_some'.mp h2
            first
              | exact ⟨fb, hfb, Or.inl hn⟩
              | exact ⟨fb, hfb, Or.inr hn⟩
      obtain ⟨fb, hfb, hin⟩ := hfb0
      have hcid' : listGetOpt nd0.children 1 = some cid := by
        have : nodeChildrenAt p a0.node = nd0.children := by simp [nodeChildrenAt, hnd0]
        rw [← this]
        exact hcid
      simp only [nodeTypeAt] at htyc
      obtain ⟨cnode, hcn, htyc'⟩ := Option.map_eq_some'.mp htyc
      simp only [nodeColumnAt, hcn, Option.map_some'] at hcolc
      have hcolc' : cnode.column = some (.set true 0) := Option.some.inj hcolc
      have hstep : inScanStep p column_name a0 = some cnode.result_name :=
        inScanStep_of_parts hnd0 hty0' hnm0' hfb hin hcid' hcn
      obtain ⟨s, hS⟩ := findSome?_isSome_of_mem (List.mem_reverse.mpr ha0) hstep
      -- every hit of the reverse scan names the same node, so s is cnode's name
      obtain ⟨a1, ha1, hscan1⟩ := findSome?_eq_some_imp hS
      have ha1' : a1 ∈ p.actions := List.mem_reverse.mp ha1
      obtain ⟨nd1, hnd1, hty1, hrn1, fb1, hfb1, hin1, cid1, cnode1, hcid1, hcn1, hs1⟩ :=
        inScanStep_some hscan1
      have hsame : a1.node = a0.node := by
        by_contra hne
        exact hdist a1.node (mem_refIds_node ha1') a0.node (mem_refIds_node ha0) hne
          (by simp only [nodeNameAt, hnd1, hnd0, Option.map_some', hrn1, hnm0'])
      rw [hsame, hnd0] at hnd1
      have hnd1' : nd0 = nd1 := Option.some.inj hnd1
      subst hnd1'
      rw [hcid'] at hcid1
      have hcideq : cid = cid1 := Option.some.inj hcid1
      subst hcideq
      rw [hcn] at hcn1
      have hcneq : cnode = cnode1 := Option.some.inj hcn1
      subst hcneq
      subst hs1
      -- cnode's name is non-empty
      have hmemcid : cid ∈ refIds p :=
        mem_refIds_child ha0 hnd0 (by
          rw [listGetOpt_eq_get?] at hcid'
          exact List.get?_mem hcid')
      have hsne : cnode.result_name ≠ "" := by
        intro hcontra
        exact hname cid hmemcid (by simp [nodeNameAt, hcn, hcontra])
      -- the second scan finds the COLUMN node (it appears as an action)
      obtain ⟨b, hb, hbnode⟩ := hcol cid hmemcid (by simp [nodeTypeAt, hcn, htyc'])
      have hbstep : emptySetColumnStep p cnode.result_name b = true :=
        emptySetColumnStep_of_parts (by rw [hbnode]; exact hcn) htyc' rfl hcolc'
      show (if ((p.actions.reverse.findSome? (inScanStep p column_name)).getD "") ≠ ""
          then p.actions.any (emptySetColumnStep p
            ((p.actions.reverse.findSome? (inScanStep p column_name)).getD ""))
          else false) = true
      rw [hS]
      simp only [Option.getD_some]
      rw [if_pos hsne]
      exact List.any_eq_true.mpr ⟨b, hb, hbstep⟩
  | false =>
    cases hchk : p.checkColumnIsAlwaysFalse column_name with
    | false => rfl
    | true =>
      exfalso
      have hchk' : (if ((p.actions.reverse.findSome? (inScanStep p column_name)).getD "") ≠ ""
          then p.actions.any (emptySetColumnStep p
            ((p.actions.reverse.findSome? (inScanStep p column_name)).getD ""))
          else false) = true := hchk
      cases hS : p.actions.reverse.findSome? (inScanStep p column_name) with
      | none =>
        rw [hS] at hchk'
        simp at hchk'
      | some s =>
        rw [hS] at hchk'
        simp only [Option.getD_some] at hchk'
        by_cases hse : s ≠ ""
        case neg => rw [if_neg hse] at hchk'; cases hchk'
        case pos =>
          rw [if_pos hse] at hchk'
          obtain ⟨b, hb, hbstep⟩ := List.any_eq_true.mp hchk'
          obtain ⟨bnd, hbnd, hbty, hbrn, hbcol⟩ := emptySetColumnStep_parts hbstep
          obtain ⟨a1, ha1, hscan1⟩ := findSome?_eq_some_imp hS
          have ha1' : a1 ∈ p.actions := List.mem_reverse.mp ha1
          obtain ⟨nd1, hnd1, hty1, hrn1, fb1, hfb1, hin1, cid1, cnode1, hcid1, hcn1, hs1⟩ :=
            inScanStep_some hscan1
          have hmemcid : cid1 ∈ refIds p :=
            mem_refIds_child ha1' hnd1 (by
              rw [listGetOpt_eq_get?] at hcid1
              exact List.get?_mem hcid1)
          have hsame : b.node = cid1 := by
            by_contra hne
            exact hdist b.node (mem_refIds_node hb) cid1 hmemcid hne
              (by simp only [nodeNameAt, hbnd, hcn1, Option.map_some', hbrn, ← hs1])
          rw [hsame, hcn1] at hbnd
          have hbeq : bnd = cnode1 := (Option.some.inj hbnd).symm
          subst hbeq
          -- build the spec witness at a1
          have hspec1 : alwaysFalseSpec p column_name = true := by
            refine List.any_eq_true.mpr ⟨a1, ha1', ?_⟩
            have hch : nodeChildrenAt p a1.node = nd1.children := by
              simp [nodeChildrenAt, hnd1]
            simp only [Bool.and_eq_true, Bool.or_eq_true, beq_iff_eq]
            refine ⟨⟨⟨?_, ?_⟩, ?_⟩, ?_⟩
            · simp [nodeTypeAt, hnd1, hty1]
            · simp [nodeNameAt, hnd1, hrn1]
            · rcases hin1 with h | h
              · exact Or.inl (by simp [nodeFnNameAt, hnd1, hfb1, h])
              · exact Or.inr (by simp [nodeFnNameAt, hnd1, hfb1, h])
            · rw [hch, hcid1]
              simp only [Bool.and_eq_true, beq_iff_eq]
              exact ⟨by simp [nodeTypeAt, hcn1, hbty], by simp [nodeColumnAt, hcn1, hbcol]⟩
          rw [hspec1] at hspec
          cases hspec

/-- C9 witness: on the concrete program `in(k, s)` over the created empty
set `s`, both the implementation and the claim's predicate answer true. -/
theorem C9_witness :
    c9p.checkColumnIsAlwaysFalse "in(k, s)" = alwaysFalseSpec c9p "in(k, s)"
    ∧ alwaysFalseSpec c9p "in(k, s)" = true :=
  ⟨C9_always_false c9p "in(k, s)" (by decide) (by decide) (by decide), by decide⟩

/-! ### C5: pruning (DFS reachability) -/

theorem pushChildren_vs_subset (vs : Finset Nat) (st : List Nat) (cs : List Nat) :
    ∀ a ∈ vs, a ∈ (pushChildren vs st cs).1 := by
  induction cs generalizing vs st with
  | nil => exact fun a ha => ha
  | cons c cs ih =>
    intro a ha
    simp only [pushChildren]
    by_cases hc : c ∈ vs
    · rw [if_pos hc]
      exact ih vs (st) a ha
    · rw [if_neg hc]
      exact ih _ _ a (Finset.mem_insert_of_mem ha)

theorem pushChildren_vs_mem (vs : Finset Nat) (st : List Nat) (cs : List Nat) (a : Nat) :
    a ∈ (pushChildren vs st cs).1 ↔ a ∈ vs ∨ a ∈ cs := by
  induction cs generalizing vs st with
  | nil => simp [pushChildren]
  | cons c cs ih =>
    simp only [pushChildren]
    by_cases hc : c ∈ vs
    · rw [if_pos hc]
      rw [ih]
      constructor
      · rintro (h | h)
        · exact Or.inl h
        · exact Or.inr (List.mem_cons_of_mem _ h)
      · rintro (h | h)
        · exact Or.inl h
        · rcases List.mem_cons.mp h with rfl | h2
          · exact Or.inl hc
          · exact Or.inr h2
    · rw [if_neg hc]
      rw [ih]
      simp only [Finset.mem_insert, List.mem_cons]
      tauto

theorem pushChildren_stack_mono (vs : Finset Nat) (st : List Nat) (cs : List Nat) :
    ∀ x ∈ st, x ∈ (pushChildren vs st cs).2 := by
  induction cs generalizing vs st with
  | nil => exact fun x hx => hx
  | cons c cs ih =>
    intro x hx
    simp only [pushChildren]
    by_cases hc : c ∈ vs
    · rw [if_pos hc]; exact ih vs st x hx
    · rw [if_neg hc]; exact ih _ _ x (List.mem_cons_of_mem _ hx)

theorem pushChildren_stack_src (vs : Finset Nat) (st : List Nat) (cs : List Nat) :
    ∀ x ∈ (pushChildren vs st cs).2, x ∈ st ∨ x ∈ cs := by
  induction cs generalizing vs st with
  | nil => exact fun x hx => Or.inl hx
  | cons c cs ih =>
    intro x hx
    simp only [pushChildren] at hx
    by_cases hc : c ∈ vs
    · rw [if_pos hc] at hx
      rcases ih vs st x hx with h | h
      · exact Or.inl h
      · exact Or.inr (List.mem_cons_of_mem _ h)
    · rw [if_neg hc] at hx
      rcases ih _ _ x hx with h | h
      · rcases List.mem_cons.mp h with rfl | h2
        · exact Or.inr (List.mem_cons_self _ _)
        · exact Or.inl h2
      · exact Or.inr (List.mem_cons_of_mem _ h)

theorem pushChildren_new_on_stack (vs : Finset Nat) (st : List Nat) (cs : List Nat) :
    ∀ a ∈ cs, a ∈ vs ∨ a ∈ (pushChildren vs st cs).2 := by
  induction cs generalizing vs st with
  | nil => intro a ha; simp at ha
  | cons c cs ih =>
    intro a ha
    simp only [pushChildren]
    by_cases hc : c ∈ vs
    · rw [if_pos hc]
      rcases List.mem_cons.mp ha with rfl | h2
      · exact Or.inl hc
      · exact ih vs st a h2
    · rw [if_neg hc]
      rcases List.mem_cons.mp ha with rfl | h2
      · exact Or.inr (pushChildren_stack_mono _ _ _ a (List.mem_cons_self _ _))
      · rcases ih (insert c vs) (c :: st) a h2 with h | h
        · rcases Finset.mem_insert.mp h with rfl | h3
          · exact Or.inr (pushChildren_stack_mono _ _ _ a (List.mem_cons_self _ _))
          · exact Or.inl h3
        · exact Or.inr h

theorem pushChildren_count (vs : Finset Nat) (st : List Nat) (cs : List Nat) :
    (pushChildren vs st cs).2.length + vs.card
      = st.length + (pushChildren vs st cs).1.card := by
  induction cs generalizing vs st with
  | nil => simp [pushChildren]
  | cons c cs ih =>
    simp only [pushChildren]
    by_cases hc : c ∈ vs
    · rw [if_pos hc]
      exact ih vs st
    · rw [if_neg hc]
      have := ih (insert c vs) (c :: st)
      rw [Finset.card_insert_of_not_mem hc] at this
      simp only [List.length_cons] at this
      omega

theorem dfsVisit_mono (ch : Nat → List Nat) :
    ∀ fuel (vs : Finset Nat) (st : List Nat), ∀ a ∈ vs, a ∈ dfsVisit ch fuel vs st := by
  intro fuel
  induction fuel with
  | zero => intro vs st a ha; exact ha
  | succ fuel ih =>
    intro vs st a ha
    cases st with
    | nil => exact ha
    | cons x st' =>
      simp only [dfsVisit]
      exact ih _ _ a (pushChildren_vs_subset _ _ _ a ha)

theorem dfsVisit_sound (ch : Nat → List Nat) (roots : List Nat) :
    ∀ fuel (vs : Finset Nat) (st : List Nat),
      (∀ v ∈ vs, Reach ch roots v) → (∀ x ∈ st, Reach ch roots x) →
      ∀ v ∈ dfsVisit ch fuel vs st, Reach ch roots v := by
  intro fuel
  induction fuel with
  | zero => intro vs st hvs _ v hv; exact hvs v hv
  | succ fuel ih =>
    intro vs st hvs hst v hv
    cases st with
    | nil => exact hvs v hv
    | cons x st' =>
      simp only [dfsVisit] at hv
      refine ih _ _ ?_ ?_ v hv
      · intro w hw
        rcases (pushChildren_vs_mem vs st' (ch x) w).mp hw with h | h
        · exact hvs w h
        · exact Reach.step (hst x (List.mem_cons_self _ _)) h
      · intro w hw
        rcases pushChildren_stack_src vs st' (ch x) w hw with h | h
        · exact hst w (List.mem_cons_of_mem _ h)
        · exact Reach.step (hst x (List.mem_cons_self _ _)) h

theorem dfsVisit_closed (ch : Nat → List Nat) (n : Nat)
    (hch : ∀ i, ∀ c ∈ ch i, c < n) :
    ∀ fuel (vs : Finset Nat) (st : List Nat),
      (∀ x ∈ st, x ∈ vs) → (∀ a ∈ vs, a < n) →
      (∀ v ∈ vs, v ∈ st ∨ ∀ c ∈ ch v, c ∈ vs) →
      st.length + (n - vs.card) ≤ fuel →
      ∀ v ∈ dfsVisit ch fuel vs st, ∀ c ∈ ch v, c ∈ dfsVisit ch fuel vs st := by
  intro fuel
  induction fuel with
  | zero =>
    intro vs st hsub hbound hproc hfuel v hv c hc
    have hst : st = [] := List.length_eq_zero.mp (by omega)
    subst hst
    rcases hproc v hv with h | h
    · simp at h
    · exact h c hc
  | succ fuel ih =>
    intro vs st hsub hbound hproc hfuel v hv c hc
    cases st with
    | nil =>
      rcases hproc v hv with h | h
      · simp at h
      · exact h c hc
    | cons x st' =>
      simp only [dfsVisit] at hv ⊢
      have hvsub : ∀ a ∈ vs, a ∈ (pushChildren vs st' (ch x)).1 :=
        pushChildren_vs_subset _ _ _
      have hsub' : ∀ y ∈ (pushChildren vs st' (ch x)).2, y ∈ (pushChildren vs st' (ch x)).1 := by
        intro y hy
        rcases pushChildren_stack_src vs st' (ch x) y hy with h | h
        · exact hvsub y (hsub y (List.mem_cons_of_mem _ h))
        · exact (pushChildren_vs_mem _ _ _ y).mpr (Or.inr h)
      have hbound' : ∀ a ∈ (pushChildren vs st' (ch x)).1, a < n := by
        intro a ha
        rcases (pushChildren_vs_mem _ _ _ a).mp ha with h | h
        · exact hbound a h
        · exact hch x a h
      have hproc' : ∀ v' ∈ (pushChildren vs st' (ch x)).1,
          v' ∈ (pushChildren vs st' (ch x)).2 ∨ ∀ c' ∈ ch v', c' ∈ (pushChildren vs st' (ch x)).1 := by
        intro v' hv'
        rcases (pushChildren_vs_mem _ _ _ v').mp hv' with h | h
        · rcases hproc v' h with h2 | h2
          · rcases List.mem_cons.mp h2 with rfl | h3
            · exact Or.inr (fun c' hc' => (pushChildren_vs_mem _ _ _ c').mpr (Or.inr hc'))
            · exact Or.inl (pushChildren_stack_mono _ _ _ v' h3)
          · exact Or.inr (fun c' hc' => hvsub c' (h2 c' hc'))
        · rcases pushChildren_new_on_stack vs st' (ch x) v' h with h2 | h2
          · rcases hproc v' h2 with h3 | h3
            · rcases List.mem_cons.mp h3 with rfl | h4
              · exact Or.inr (fun c' hc' => (pushChildren_vs_mem _ _ _ c').mpr (Or.inr hc'))
              · exact Or.inl (pushChildren_stack_mono _ _ _ v' h4)
            · exact Or.inr (fun c' hc' => hvsub c' (h3 c' hc'))
          · exact Or.inl h2
      have hfuel' : (pushChildren vs st' (ch x)).2.length
          + (n - (pushChildren vs st' (ch x)).1.card) ≤ fuel := by
        have hcount := pushChildren_count vs st' (ch x)
        have hcard1 : vs.card ≤ (pushChildren vs st' (ch x)).1.card :=
          Finset.card_le_card (fun a ha => hvsub a ha)
        have hcard2 : (pushChildren vs st' (ch x)).1.card ≤ n := by
          have : (pushChildren vs st' (ch x)).1 ⊆ Finset.range n := by
            intro a ha
            exact Finset.mem_range.mpr (hbound' a ha)
          simpa using Finset.card_le_card this
        simp only [List.length_cons] at hfuel
        omega
      exact ih _ _ hsub' hbound' hproc' hfuel' v hv c hc

theorem foldl_insert_mem (roots : List Nat) :
    ∀ (acc : Finset Nat) (a : Nat),
      a ∈ roots.foldl (fun s j => insert j s) acc ↔ a ∈ acc ∨ a ∈ roots := by
  induction roots with
  | nil => simp
  | cons r rs ih =>
    intro acc a
    simp only [List.foldl_cons]
    rw [ih]
    simp only [Finset.mem_insert, List.mem_cons]
    tauto

/-- the DFS of `removeUnusedActions` computes exactly reachability through
`children` from the required roots. -/
theorem dfsVisit_spec (ch : Nat → List Nat) (n : Nat)
    (hch : ∀ i, ∀ c ∈ ch i, c < n) (roots : List Nat)
    (hroots : ∀ r ∈ roots, r < n) (i : Nat) :
    i ∈ dfsVisit ch (roots.length + n) (roots.foldl (fun s j => insert j s) ∅)
        roots.reverse
      ↔ Reach ch roots i := by
  have hvs0 : ∀ a, a ∈ roots.foldl (fun s j => insert j s) (∅ : Finset Nat) ↔ a ∈ roots := by
    intro a
    rw [foldl_insert_mem]
    simp
  constructor
  · intro h
    refine dfsVisit_sound ch roots _ _ _ ?_ ?_ i h
    · intro v hv
      exact Reach.root ((hvs0 v).mp hv)
    · intro x hx
      exact Reach.root (List.mem_reverse.mp hx)
  · intro h
    have hclosed := dfsVisit_closed ch n hch (roots.length + n)
      (roots.foldl (fun s j => insert j s) ∅) roots.reverse
      (fun x hx => (hvs0 x).mpr (List.mem_reverse.mp hx))
      (fun a ha => hroots a ((hvs0 a).mp ha))
      (fun v hv => Or.inl (List.mem_reverse.mpr ((hvs0 v).mp hv)))
      (by
        simp only [List.length_reverse]
        omega)
    induction h with
    | root hr =>
      exact dfsVisit_mono ch _ _ _ _ ((hvs0 _).mpr hr)
    | step hre hc ihh =>
      exact hclosed _ ihh _ hc

theorem listGetOpt_ge {l : List α} {i : Nat} (h : l.length ≤ i) : listGetOpt l i = none := by
  induction l generalizing i with
  | nil => cases i <;> rfl
  | cons x xs ih =>
    cases i with
    | zero => simp at h
    | succ n => exact ih (Nat.le_of_succ_le_succ h)

theorem childrenOf_bound {dag : ActionsDAG} (hwf : WFDag dag) :
    ∀ i, ∀ c ∈ childrenOf dag i, c < dag.nodes.length := by
  intro i c hc
  by_cases hi : i < dag.nodes.length
  · exact hwf.1 i hi c hc
  · have hnone : childrenOf dag i = [] := by
      simp [childrenOf, ActionsDAG.get, listGetOpt_ge (Nat.le_of_not_lt hi)]
    rw [hnone] at hc
    simp at hc

theorem rootsOf_bound {dag : ActionsDAG} (hwf : WFDag dag) (required : List String) :
    ∀ r ∈ rootsOf dag required, r < dag.nodes.length := by
  intro r hr
  obtain ⟨nm, -, hlk⟩ := List.mem_filterMap.mp hr
  exact hwf.2 _ (lookup_mem hlk)

theorem listGetOpt_enumFrom (l : List α) :
    ∀ (ofs i : Nat), listGetOpt (List.enumFrom ofs l) i
      = (listGetOpt l i).map (fun a => (ofs + i, a)) := by
  induction l with
  | nil => intro ofs i; cases i <;> rfl
  | cons x xs ih =>
    intro ofs i
    cases i with
    | zero => simp [List.enumFrom, listGetOpt]
    | succ n =>
      simp only [List.enumFrom, listGetOpt]
      rw [ih (ofs + 1) n]
      cases h : listGetOpt xs n with
      | none => rfl
      | some a =>
        simp only [Option.map_some', Option.some.injEq, Prod.mk.injEq]
        exact ⟨by omega, trivial⟩

theorem listGetOpt_enum (l : List α) (i : Nat) :
    listGetOpt l.enum i = (listGetOpt l i).map (fun a => (i, a)) := by
  have h := listGetOpt_enumFrom l 0 i
  simpa [List.enum] using h

theorem collectRoots_error {dag : ActionsDAG} :
    ∀ {rc : List String}, (∃ nm ∈ rc, dag.index.lookup nm = none) →
      ∃ m, dag.collectRoots rc = .error ⟨.UNKNOWN_IDENTIFIER, m⟩ := by
  intro rc
  induction rc with
  | nil => rintro ⟨nm, h, -⟩; simp at h
  | cons n ns ih =>
    rintro ⟨nm, hmem, hnone⟩
    simp only [ActionsDAG.collectRoots]
    cases hl : dag.index.lookup n with
    | none => exact ⟨_, rfl⟩
    | some id =>
      rcases List.mem_cons.mp hmem with rfl | h2
      · rw [hl] at hnone; exact Option.noConfusion hnone
      · obtain ⟨m, hm⟩ := ih ⟨nm, h2, hnone⟩
        refine ⟨m, ?_⟩
        simp only [bind, Except.bind, hm]

theorem collectRoots_ok {dag : ActionsDAG} :
    ∀ {rc : List String}, (∀ nm ∈ rc, (dag.index.lookup nm).isSome = true) →
      ∃ l, dag.collectRoots rc = .ok l ∧ l.map Prod.fst = rc
        ∧ l.map Prod.snd = rootsOf dag rc
        ∧ ∀ q ∈ l, dag.index.lookup q.1 = some q.2 := by
  intro rc
  induction rc with
  | nil =>
    intro _
    exact ⟨[], rfl, rfl, rfl, fun q hq => absurd hq (List.not_mem_nil q)⟩
  | cons n ns ih =>
    intro h
    obtain ⟨id, hid⟩ := Option.isSome_iff_exists.mp (h n (List.mem_cons_self _ _))
    obtain ⟨l, hl, hfst, hsnd, hq⟩ := ih (fun nm hm => h nm (List.mem_cons_of_mem _ hm))
    refine ⟨(n, id) :: l, ?_, by simp [hfst], ?_, ?_⟩
    · simp only [ActionsDAG.collectRoots, hid, bind, Except.bind, hl]
    · simp only [List.map_cons]
      rw [hsnd]
      simp [rootsOf, List.filterMap_cons, hid]
    · rintro q hq2
      rcases List.mem_cons.mp hq2 with rfl | h2
      · exact hid
      · exact hq _ h2

theorem foldl_indexSet_lookup {dag : ActionsDAG} :
    ∀ (l : List (String × Nat)) (acc : List (String × Nat)),
      (∀ q ∈ l, dag.index.lookup q.1 = some q.2) →
      ∀ nm, ((l.foldl (fun ix r => indexSet ix r.1 r.2) acc).lookup nm)
        = if nm ∈ l.map Prod.fst then dag.index.lookup nm else acc.lookup nm := by
  intro l
  induction l with
  | nil => intro acc _ nm; simp
  | cons r rs ih =>
    intro acc h nm
    simp only [List.foldl_cons]
    rw [ih _ (fun q hq => h q (List.mem_cons_of_mem _ hq)) nm]
    by_cases hmem : nm ∈ rs.map Prod.fst
    · rw [if_pos hmem, if_pos (by simp only [List.map_cons, List.mem_cons]; exact Or.inr hmem)]
    · rw [if_neg hmem]
      by_cases hnm : nm = r.1
      · subst hnm
        rw [indexSet_lookup_self, if_pos (by simp), h r (List.mem_cons_self _ _)]
      · rw [indexSet_lookup_ne _ _ hnm]
        rw [if_neg (by
          simp only [List.map_cons, List.mem_cons]
          rintro (h1 | h1)
          · exact hnm h1
          · exact hmem h1)]

/-- C5: `removeUnusedActions(required_names)` raises UNKNOWN_IDENTIFIER if a
required name is absent from the index; otherwise it retains exactly the
nodes reachable from the required names through `children` links, rebuilds
the index to map exactly the required names, and clears `renaming_parent`
on every surviving node whose renaming parent was pruned. -/
theorem C5_removeUnusedActions (dag : ActionsDAG) (required : List String)
    (hwf : WFDag dag) :
    ((∃ nm ∈ required, dag.index.lookup nm = none) →
      ∃ m, dag.removeUnusedActions required = .error ⟨.UNKNOWN_IDENTIFIER, m⟩)
    ∧ ((∀ nm ∈ required, (dag.index.lookup nm).isSome = true) →
       ∃ dag', dag.removeUnusedActions required = .ok dag'
        ∧ (∀ i, ((dag'.get i).isSome = true) ↔
            (((dag.get i).isSome = true)
              ∧ Reach (childrenOf dag) (rootsOf dag required) i))
        ∧ (∀ nm, dag'.index.lookup nm
            = if nm ∈ required then dag.index.lookup nm else none)
        ∧ (∀ i n', dag'.get i = some n' → ∃ nn, dag.get i = some nn
            ∧ (nn.renaming_parent = none → n' = nn)
            ∧ (∀ rp, nn.renaming_parent = some rp →
                (Reach (childrenOf dag) (rootsOf dag required) rp → n' = nn)
                ∧ (¬ Reach (childrenOf dag) (rootsOf dag required) rp →
                    n' = { nn with renaming_parent := none })))) := by
  constructor
  · intro hmiss
    obtain ⟨m, hm⟩ := collectRoots_error hmiss
    refine ⟨m, ?_⟩
    simp only [ActionsDAG.removeUnusedActions, bind, Except.bind, hm]
  · intro hall
    obtain ⟨l, hl, hfst, hsnd, hq⟩ := collectRoots_ok hall
    have hsnd' : List.map (fun r => r.2) l = rootsOf dag required := hsnd
    have hV : ∀ i, (i ∈ dfsVisit (childrenOf dag)
        ((List.map (fun r => r.2) l).length + dag.nodes.length)
        (List.foldl (fun s j => insert j s) ∅ (List.map (fun r => r.2) l))
        (List.map (fun r => r.2) l).reverse)
        ↔ Reach (childrenOf dag) (rootsOf dag required) i := by
      intro i
      have h2 := dfsVisit_spec (childrenOf dag) dag.nodes.length (childrenOf_bound hwf)
        (List.map (fun r => r.2) l) (fun r hr => rootsOf_bound hwf required r (hsnd' ▸ hr)) i
      constructor
      · intro h
        have h3 := h2.mp h
        rwa [hsnd'] at h3
      · intro h
        refine h2.mpr ?_
        rwa [← hsnd'] at h
    obtain ⟨dag', hokk⟩ : ∃ d, dag.removeUnusedActions required = .ok d := by
      simp only [ActionsDAG.removeUnusedActions, bind, Except.bind, hl]
      exact ⟨_, rfl⟩
    have hokk2 := hokk
    simp only [ActionsDAG.removeUnusedActions, bind, Except.bind, hl] at hokk2
    have hd := Except.ok.inj hokk2
    subst hd
    refine ⟨_, hokk, ?_, ?_, ?_⟩
    · intro i
      simp only [ActionsDAG.get]
      rw [listGetOpt_map, listGetOpt_map, listGetOpt_enum]
      cases hnode : listGetOpt dag.nodes i with
      | none =>
        simp only [Option.map_none', Option.join]
        constructor
        · intro h; exact Bool.noConfusion h
        · rintro ⟨h, -⟩
          simp [ActionsDAG.get, hnode] at h
      | some o =>
        have hdget : dag.get i = (some o).join := by
          simp [ActionsDAG.get, hnode]
        cases o with
        | none =>
          simp only [Option.map_some', Option.join]
          constructor
          · intro h
            by_cases hi : i ∈ dfsVisit (childrenOf dag)
                ((List.map (fun r => r.2) l).length + dag.nodes.length)
                (List.foldl (fun s j => insert j s) ∅ (List.map (fun r => r.2) l))
                (List.map (fun r => r.2) l).reverse
            · rw [if_pos hi] at h
              exact Bool.noConfusion h
            · rw [if_neg hi] at h
              exact Bool.noConfusion h
          · rintro ⟨h, -⟩
            exact Bool.noConfusion h
        | some nd =>
          simp only [Option.map_some', Option.join]
          by_cases hi : i ∈ dfsVisit (childrenOf dag)
              ((List.map (fun r => r.2) l).length + dag.nodes.length)
              (List.foldl (fun s j => insert j s) ∅ (List.map (fun r => r.2) l))
              (List.map (fun r => r.2) l).reverse
          · rw [if_pos hi]
            simp only [Option.map_some', Option.join]
            constructor
            · intro _
              exact ⟨rfl, (hV i).mp hi⟩
            · intro _
              rfl
          · rw [if_neg hi]
            simp only [Option.map_none', Option.join]
            constructor
            · intro h; exact Bool.noConfusion h
            · rintro ⟨-, hreach⟩
              exact absurd ((hV i).mpr hreach) hi
    · intro nm
      show ((l.foldl (fun ix r => indexSet ix r.1 r.2) []).lookup nm) = _
      rw [foldl_indexSet_lookup l [] hq nm]
      rw [hfst]
      by_cases hmem : nm ∈ required
      · rw [if_pos hmem, if_pos hmem]
      · rw [if_neg hmem, if_neg hmem]
        rfl
    · intro i n' hget
      simp only [ActionsDAG.get] at hget
      rw [listGetOpt_map, listGetOpt_map, listGetOpt_enum] at hget
      cases hnode : listGetOpt dag.nodes i with
      | none => rw [hnode] at hget; exact Option.noConfusion hget
      | some o =>
        rw [hnode] at hget
        simp only [Option.map_some'] at hget
        cases o with
        | none =>
          by_cases hi : i ∈ dfsVisit (childrenOf dag)
              ((List.map (fun r => r.2) l).length + dag.nodes.length)
              (List.foldl (fun s j => insert j s) ∅ (List.map (fun r => r.2) l))
              (List.map (fun r => r.2) l).reverse
          · rw [if_pos hi] at hget
            exact Option.noConfusion hget
          · rw [if_neg hi] at hget
            exact Option.noConfusion hget
        | some nd =>
          by_cases hi : i ∈ dfsVisit (childrenOf dag)
              ((List.map (fun r => r.2) l).length + dag.nodes.length)
              (List.foldl (fun s j => insert j s) ∅ (List.map (fun r => r.2) l))
              (List.map (fun r => r.2) l).reverse
          · rw [if_pos hi] at hget
            simp only [Option.map_some', Option.join] at hget
            have hdagget : dag.get i = some nd := by
              simp [ActionsDAG.get, hnode]
            have hval := Option.some.inj hget
            refine ⟨nd, hdagget, ?_, ?_⟩
            · intro hrp
              rw [← hval, hrp]
            · intro rp hrp
              constructor
              · intro hreach
                rw [← hval, hrp]
                dsimp only
                rw [if_pos ((hV rp).mpr hreach)]
              · intro hreach
                rw [← hval, hrp]
                dsimp only
                rw [if_neg (fun hc => hreach ((hV rp).mp hc))]
          · rw [if_neg hi] at hget
            exact Option.noConfusion hget

/-- C5 witness on a three-node DAG (`x`, `a = alias(x)`, `z`): pruning to
`["a"]` keeps exactly `a` and its child `x`, drops `z`, and the rebuilt
index maps exactly `a`. -/
theorem C5_witness :
    ∃ dag', c5dag.removeUnusedActions ["a"] = .ok dag'
      ∧ (((dag'.get 0).isSome = true) ↔
          (((c5dag.get 0).isSome = true)
            ∧ Reach (childrenOf c5dag) (rootsOf c5dag ["a"]) 0))
      ∧ (∀ nm, dag'.index.lookup nm
          = if nm ∈ ["a"] then c5dag.index.lookup nm else none) := by
  obtain ⟨dag', hok, hget, hix, -⟩ :=
    (C5_removeUnusedActions c5dag ["a"] (by decide)).2 (by decide)
  exact ⟨dag', hok, hget 0, hix⟩

/-! ### C1: the erase loop of `execute` equals positional filtering -/

theorem keepIdxsFrom_high {ps : List Nat} :
    ∀ (l : List α) (ofs : Nat), (∀ q ∈ ps, q < ofs) → keepIdxsFrom ps ofs l = l := by
  intro l
  induction l with
  | nil => intro ofs _; rfl
  | cons x xs ih =>
    intro ofs h
    simp only [keepIdxsFrom]
    rw [if_neg (fun hc => absurd (h ofs hc) (lt_irrefl ofs)),
      ih (ofs + 1) (fun q hq => Nat.lt_succ_of_lt (h q hq))]

theorem keepIdxsFrom_congr {ps ps' : List Nat} (hmem : ∀ q, q ∈ ps ↔ q ∈ ps') :
    ∀ (l : List α) (ofs : Nat), keepIdxsFrom ps ofs l = keepIdxsFrom ps' ofs l := by
  intro l
  induction l with
  | nil => intro _; rfl
  | cons x xs ih =>
    intro ofs
    simp only [keepIdxsFrom]
    by_cases h : ofs ∈ ps
    · rw [if_pos h, if_pos ((hmem ofs).mp h), ih]
    · rw [if_neg h, if_neg (fun hc => h ((hmem ofs).mpr hc)), ih]

theorem keepIdxsFrom_erase :
    ∀ (l : List α) (d ofs : Nat) (ps : List Nat), (∀ q ∈ ps, q < ofs + d) →
      keepIdxsFrom ps ofs (l.eraseIdx d) = keepIdxsFrom ((ofs + d) :: ps) ofs l := by
  intro l
  induction l with
  | nil => intro d ofs ps _; rw [List.eraseIdx_nil]; rfl
  | cons x xs ih =>
    intro d ofs ps h
    cases d with
    | zero =>
      rw [List.eraseIdx_cons_zero]
      rw [keepIdxsFrom_high xs ofs (fun q hq => by have := h q hq; omega)]
      show _ = keepIdxsFrom ((ofs + 0) :: ps) ofs (x :: xs)
      simp only [keepIdxsFrom]
      rw [if_pos (by simp), keepIdxsFrom_high xs (ofs + 1) (fun q hq => by
        rcases List.mem_cons.mp hq with h1 | h1
        · omega
        · have := h q h1; omega)]
    | succ d' =>
      rw [List.eraseIdx_cons_succ]
      have hne : ofs ≠ ofs + (d' + 1) := by omega
      have ih' := ih d' (ofs + 1) ps (fun q hq => by have := h q hq; omega)
      have heq : ofs + 1 + d' = ofs + (d' + 1) := by omega
      rw [heq] at ih'
      simp only [keepIdxsFrom]
      by_cases hmem : ofs ∈ ps
      · rw [if_pos hmem, if_pos (List.mem_cons_of_mem _ hmem), ih']
      · rw [if_neg hmem, if_neg (by
          intro hc
          rcases List.mem_cons.mp hc with h1 | h1
          · exact hne h1
          · exact hmem h1), ih']

theorem eraseFold :
    ∀ (ps : List Nat) (l : List α), List.Pairwise (fun a b => b < a) ps →
      (∀ q ∈ ps, q < l.length) →
      ps.foldl (fun acc i => acc.eraseIdx i) l = keepIdxsFrom ps 0 l := by
  intro ps
  induction ps with
  | nil =>
    intro l _ _
    rw [List.foldl_nil, keepIdxsFrom_high l 0 (fun q hq => absurd hq (List.not_mem_nil q))]
  | cons q qs ih =>
    intro l hpw hbd
    rw [List.foldl_cons]
    have hqlt : q < l.length := hbd q (List.mem_cons_self _ _)
    have hlt : ∀ r ∈ qs, r < q := fun r hr => (List.pairwise_cons.mp hpw).1 r hr
    have hbd' : ∀ r ∈ qs, r < (l.eraseIdx q).length := by
      intro r hr
      rw [List.length_eraseIdx, if_pos hqlt]
      have := hlt r hr
      omega
    rw [ih (l.eraseIdx q) (List.pairwise_cons.mp hpw).2 hbd']
    have h0 := keepIdxsFrom_erase l q 0 qs (fun r hr => by have := hlt r hr; omega)
    rw [h0]
    have hz : (0 : Nat) + q = q := by omega
    rw [hz]

theorem insertDesc_eq (x : Nat) :
    ∀ l : List Nat, insertDesc x l = List.orderedInsert (fun a b => a ≥ b) x l := by
  intro l
  induction l with
  | nil => rfl
  | cons y ys ih =>
    simp only [insertDesc, List.orderedInsert]
    by_cases h : x ≥ y
    · rw [if_pos h, if_pos h]
    · rw [if_neg h, if_neg h, ih]

theorem sortDesc_eq : ∀ l : List Nat, sortDesc l = List.insertionSort (fun a b => a ≥ b) l := by
  intro l
  induction l with
  | nil => rfl
  | cons x xs ih => simp only [sortDesc, List.insertionSort, ih, insertDesc_eq]

theorem sortDesc_perm (l : List Nat) : (sortDesc l).Perm l := by
  rw [sortDesc_eq]
  exact List.perm_insertionSort _ l

theorem sortDesc_sorted (l : List Nat) :
    List.Pairwise (fun a b => a ≥ b) (sortDesc l) := by
  rw [sortDesc_eq]
  exact @List.sorted_insertionSort Nat (fun a b => a ≥ b) _
    ⟨fun a b => le_total b a⟩ ⟨fun _ _ _ h1 h2 => le_trans h2 h1⟩ l

theorem sortDesc_strict {l : List Nat} (hnd : l.Nodup) :
    List.Pairwise (fun a b => b < a) (sortDesc l) := by
  have h1 := sortDesc_sorted l
  have h2 : (sortDesc l).Nodup := ((sortDesc_perm l).symm).nodup hnd
  exact (h1.and h2).imp (fun h => lt_of_le_of_ne h.1 (Ne.symm h.2))

theorem eraseDesc_data :
    ∀ (qs : List Nat) (cols : List ColumnWithTypeAndName),
      qs.foldl (fun bl i => bl.eraseAt i) (Block.mk cols)
        = Block.mk (qs.foldl (fun acc i => acc.eraseIdx i) cols) := by
  intro qs
  induction qs with
  | nil => intro cols; rfl
  | cons q qs' ih =>
    intro cols
    rw [List.foldl_cons, List.foldl_cons]
    exact ih (cols.eraseIdx q)

theorem findIdx_some_spec (p : α → Bool) :
    ∀ (l : List α) (i j : Nat), List.findIdx? p l i = some j →
      i ≤ j ∧ j - i < l.length ∧ ∃ x, listGetOpt l (j - i) = some x ∧ p x = true := by
  intro l
  induction l with
  | nil =>
    intro i j h
    rw [List.findIdx?_nil] at h
    exact Option.noConfusion h
  | cons x xs ih =>
    intro i j h
    rw [List.findIdx?_cons] at h
    by_cases hp : p x = true
    · rw [if_pos hp] at h
      obtain rfl := Option.some.inj h
      exact ⟨le_refl i, by simp only [List.length_cons]; omega, x,
        by rw [Nat.sub_self]; rfl, hp⟩
    · rw [if_neg hp] at h
      obtain ⟨h1, h2, y, h3, h4⟩ := ih (i + 1) j h
      refine ⟨by omega, by simp only [List.length_cons]; omega, y, ?_, h4⟩
      have hji : j - i = (j - (i + 1)) + 1 := by omega
      rw [hji]
      exact h3

theorem getPositionByName_lt {b : Block} {nm : String} {pos : Nat}
    (h : b.getPositionByName? nm = some pos) : pos < b.data.length := by
  have h' : List.findIdx? (fun c : ColumnWithTypeAndName => c.name == nm) b.data 0
      = some pos := h
  obtain ⟨-, h2, -⟩ := findIdx_some_spec _ b.data 0 pos h'
  simpa using h2

theorem getPositionByName_name {b : Block} {nm : String} {pos : Nat}
    (h : b.getPositionByName? nm = some pos) :
    ∃ c, listGetOpt b.data pos = some c ∧ c.name = nm := by
  have h' : List.findIdx? (fun c : ColumnWithTypeAndName => c.name == nm) b.data 0
      = some pos := h
  obtain ⟨-, -, c, h3, h4⟩ := findIdx_some_spec _ b.data 0 pos h'
  rw [Nat.sub_zero] at h3
  exact ⟨c, h3, by simpa using h4⟩

theorem getPositionByName_inj {b : Block} {nm1 nm2 : String} {pos : Nat}
    (h1 : b.getPositionByName? nm1 = some pos)
    (h2 : b.getPositionByName? nm2 = some pos) : nm1 = nm2 := by
  obtain ⟨c, hc, hn⟩ := getPositionByName_name h1
  obtain ⟨c', hc', hn'⟩ := getPositionByName_name h2
  rw [hc] at hc'
  obtain rfl := Option.some.inj hc'
  rw [← hn, ← hn']

theorem gatherInputs_mem {p : ExpressionActions} {block : Block} :
    ∀ {rc : List (String × Option DataType)} {slots : List ColumnWithTypeAndName}
      {removes : List Nat}, gatherInputs p block rc = .ok (slots, removes) →
      ∀ pos ∈ removes, ∃ nm ∈ rc.map Prod.fst,
        block.getPositionByName? nm = some pos := by
  intro rc
  induction rc with
  | nil =>
    intro slots removes h pos hpos
    simp only [gatherInputs] at h
    injection h with h'
    injection h' with h1 h2
    rw [← h2] at hpos
    exact absurd hpos (List.not_mem_nil pos)
  | cons nr rest ih =>
    obtain ⟨name, ty⟩ := nr
    intro slots removes h pos hpos
    simp only [gatherInputs, bind, Except.bind] at h
    cases hpb : block.getPositionByName? name with
    | none =>
      rw [hpb] at h
      exact Except.noConfusion h
    | some q =>
      simp only [hpb] at h
      cases hg : gatherInputs p block rest with
      | error e =>
        rw [hg] at h
        exact Except.noConfusion h
      | ok pr =>
        obtain ⟨slots', removes'⟩ := pr
        simp only [hg] at h
        injection h with h'
        injection h' with h1 h2
        rw [← h2] at hpos
        by_cases hs : p.sample_block.has name
        · rw [if_pos hs] at hpos
          obtain ⟨nm, hnm, hnm2⟩ := ih hg pos hpos
          exact ⟨nm, by simp only [List.map_cons]; exact List.mem_cons_of_mem _ hnm, hnm2⟩
        · rw [if_neg hs] at hpos
          rcases List.mem_cons.mp hpos with h3 | h3
          · exact ⟨name, by simp only [List.map_cons]; exact List.mem_cons_self _ _,
              h3 ▸ hpb⟩
          · obtain ⟨nm, hnm, hnm2⟩ := ih hg pos h3
            exact ⟨nm, by simp only [List.map_cons]; exact List.mem_cons_of_mem _ hnm, hnm2⟩

theorem gatherInputs_nodup {p : ExpressionActions} {block : Block} :
    ∀ {rc : List (String × Option DataType)} {slots : List ColumnWithTypeAndName}
      {removes : List Nat}, (rc.map Prod.fst).Nodup →
      gatherInputs p block rc = .ok (slots, removes) → removes.Nodup := by
  intro rc
  induction rc with
  | nil =>
    intro slots removes _ h
    simp only [gatherInputs] at h
    injection h with h'
    injection h' with h1 h2
    rw [← h2]
    exact List.nodup_nil
  | cons nr rest ih =>
    obtain ⟨name, ty⟩ := nr
    intro slots removes hnd h
    simp only [List.map_cons] at hnd
    have hnotmem : name ∉ rest.map Prod.fst := (List.nodup_cons.mp hnd).1
    have hnd' : (rest.map Prod.fst).Nodup := (List.nodup_cons.mp hnd).2
    simp only [gatherInputs, bind, Except.bind] at h
    cases hpb : block.getPositionByName? name with
    | none =>
      rw [hpb] at h
      exact Except.noConfusion h
    | some q =>
      simp only [hpb] at h
      cases hg : gatherInputs p block rest with
      | error e =>
        rw [hg] at h
        exact Except.noConfusion h
      | ok pr =>
        obtain ⟨slots', removes'⟩ := pr
        simp only [hg] at h
        injection h with h'
        injection h' with h1 h2
        rw [← h2]
        by_cases hs : p.sample_block.has name
        · rw [if_pos hs]
          exact ih hnd' hg
        · rw [if_neg hs]
          refine List.nodup_cons.mpr ⟨?_, ih hnd' hg⟩
          intro hq
          obtain ⟨nm, hnm, hpb'⟩ := gatherInputs_mem hg q hq
          exact hnotmem ((getPositionByName_inj hpb' hpb) ▸ hnm)

theorem gatherInputs_bound {p : ExpressionActions} {block : Block}
    {rc : List (String × Option DataType)} {slots : List ColumnWithTypeAndName}
    {removes : List Nat} (h : gatherInputs p block rc = .ok (slots, removes)) :
    ∀ pos ∈ removes, pos < block.data.length := by
  intro pos hpos
  obtain ⟨nm, -, hpb⟩ := gatherInputs_mem h pos hpos
  exact getPositionByName_lt hpb

theorem executeAction_inputs {p : ExpressionActions} {a : Action}
    {ctx ctx' : ExecutionContext} {dry : Bool}
    (h : executeAction p a ctx dry = .ok ctx') :
    ctx'.input_columns.length = ctx.input_columns.length := by
  simp only [executeAction, bind, Except.bind] at h
  repeat' split at h
  all_goals try exact Except.noConfusion h
  all_goals injection h with h'
  all_goals rw [← h']
  all_goals simp only [replicateColumns, List.length_map]

theorem exceptBind_ok {α β : Type} {x : Except Err α} {f : α → Except Err β} {b : β}
    (h : x >>= f = .ok b) : ∃ a, x = .ok a ∧ f a = .ok b := by
  cases x with
  | error e =>
    simp only [bind, Except.bind] at h
    exact Except.noConfusion h
  | ok a =>
    refine ⟨a, rfl, ?_⟩
    simpa only [bind, Except.bind] using h

theorem runActions_inputs {p : ExpressionActions} {dry : Bool} :
    ∀ {acts : List Action} {ctx ctx' : ExecutionContext},
      runActions p dry acts ctx = .ok ctx' →
      ctx'.input_columns.length = ctx.input_columns.length := by
  intro acts
  induction acts with
  | nil =>
    intro ctx ctx' h
    simp only [runActions] at h
    rw [← Except.ok.inj h]
  | cons a rest ih =>
    intro ctx ctx' h
    simp only [runActions, bind, Except.bind] at h
    cases hea : executeAction p a ctx dry with
    | error e =>
      simp only [hea] at h
      exact Except.noConfusion h
    | ok ctx1 =>
      simp only [hea] at h
      cases hcl : p.checkLimits ctx1 with
      | error e =>
        simp only [hcl] at h
        exact Except.noConfusion h
      | ok u =>
        simp only [hcl] at h
        rw [ih h, executeAction_inputs hea]

/-- C1: `execute(block, dry_run)` realizes the sample-block schema: the
result of every action flagged `is_used_in_result` is moved into the block
under the node's result name (overwriting an existing column of that name);
when `project_input` is false the recorded input positions (those moved out
and absent from `sample_block`) are erased and every other pre-existing
column is kept in place; when `project_input` is true the block is cleared
before the results are inserted.  Stated as equality with the claim-side
composition `executeSpec`, for programs whose required column names are
distinct. -/
theorem C1_execute_schema (p : ExpressionActions) (block : Block) (dry_run : Bool)
    (hnd : (p.required_columns.map Prod.fst).Nodup) :
    p.execute block dry_run = p.executeSpec block dry_run := by
  cases hec : p.executeCtx block dry_run with
  | error e =>
    simp only [ExpressionActions.execute, ExpressionActions.executeSpec,
      bind, Except.bind, hec]
  | ok pr =>
    obtain ⟨ctx, removes⟩ := pr
    have hec2 := hec
    simp only [ExpressionActions.executeCtx] at hec2
    obtain ⟨pr2, hg, h2⟩ := exceptBind_ok hec2
    obtain ⟨slots, removes2⟩ := pr2
    obtain ⟨ctx2, hr, h3⟩ := exceptBind_ok h2
    injection h3 with h4
    injection h4 with h5 h6
    subst h5
    subst h6
    have hnodup : removes2.Nodup := gatherInputs_nodup hnd hg
    have hbd : ∀ q ∈ removes2, q < block.data.length := gatherInputs_bound hg
    have hlen : ctx2.input_columns.length = block.data.length := runActions_inputs hr
    simp only [ExpressionActions.execute, ExpressionActions.executeSpec,
      bind, Except.bind, hec]
    by_cases hpi : p.project_input
    · rw [if_pos hpi, if_pos hpi]
    · rw [if_neg hpi, if_neg hpi]
      have hkey : eraseDesc (Block.mk ctx2.input_columns) removes2
          = Block.mk (keepIdxs ctx2.input_columns removes2) := by
        rw [eraseDesc, eraseDesc_data,
          eraseFold (sortDesc removes2) ctx2.input_columns (sortDesc_strict hnodup)
            (fun q hq => by
              rw [hlen]
              exact hbd q ((sortDesc_perm removes2).mem_iff.mp hq)),
          keepIdxsFrom_congr (fun q => (sortDesc_perm removes2).mem_iff)
            ctx2.input_columns 0, keepIdxs]
      rw [hkey]

/-- C1 witness: a one-input program with one constant action; required
names are distinct and `execute` agrees with the claim-side composition. -/
theorem C1_witness :
    (c1prog.required_columns.map Prod.fst).Nodup
      ∧ c1prog.execute c1block false = c1prog.executeSpec c1block false :=
  ⟨by decide, C1_execute_schema c1prog c1block false (by decide)⟩

/-! ### C3 (amended): slot allocation without a free stack, and remove tagging -/

theorem getData_oob {data : List BEData} {i : Nat} (h : data.length ≤ i) :
    getData data i = {} := by
  rw [getData, listGetOpt_ge h]
  rfl

theorem getData_dataSet_self {data : List BEData} {i : Nat} (f : BEData → BEData)
    (h : i < data.length) : getData (dataSet data i f) i = f (getData data i) := by
  simp only [getData, dataSet, listModify_get_self f h]
  cases hx : listGetOpt data i with
  | none =>
    obtain ⟨a, ha⟩ := listGetOpt_is_some_of_lt h
    rw [hx] at ha
    exact Option.noConfusion ha
  | some d => rfl

theorem getData_dataSet_ne {data : List BEData} {i j : Nat} (f : BEData → BEData)
    (h : i ≠ j) : getData (dataSet data i f) j = getData data j := by
  simp only [getData, dataSet, listModify_get_ne f h]

theorem dataSet_length (data : List BEData) (i : Nat) (f : BEData → BEData) :
    (dataSet data i f).length = data.length := listModify_length data i f

theorem getData_dataSet_pos {data : List BEData} {i j : Nat} {f : BEData → BEData}
    (hf : ∀ d, (f d).position = d.position) :
    (getData (dataSet data i f) j).position = (getData data j).position := by
  by_cases hij : i = j
  · subst hij
    by_cases hlt : i < data.length
    · rw [getData_dataSet_self f hlt, hf]
    · rw [getData_oob (by rw [dataSet_length]; omega), getData_oob (by omega)]
  · rw [getData_dataSet_ne f hij]

theorem collectArguments_data :
    ∀ (cs : List Nat) (data data2 : List BEData) (args : List Argument),
      collectArguments data cs = .ok (data2, args) →
      ∀ i, (getData data2 i).position = (getData data i).position := by
  intro cs
  induction cs with
  | nil =>
    intro data data2 args h i
    simp only [collectArguments] at h
    injection h with h'
    injection h' with h1 h2
    rw [← h1]
  | cons c0 cs' ih =>
    intro data data2 args h i
    simp only [collectArguments] at h
    cases hpos : (getData data c0).position with
    | none =>
      rw [hpos] at h
      exact Except.noConfusion h
    | some pos0 =>
      simp only [hpos] at h
      obtain ⟨pr, hca, h2⟩ := exceptBind_ok h
      obtain ⟨data2x, argsx⟩ := pr
      injection h2 with h3
      injection h3 with h4 h5
      rw [← h4]
      rw [ih _ _ _ hca i]
      exact @getData_dataSet_pos data c0 i
        (fun dd => { dd with
          num_created_parents := (getData data c0).num_created_parents + 1 })
        (fun d => rfl)

theorem collectArguments_remove :
    ∀ (cs : List Nat) (data data2 : List BEData) (args : List Argument),
      collectArguments data cs = .ok (data2, args) →
      args.length = cs.length ∧
      ∀ k c, listGetOpt cs k = some c →
        ∃ pos, (getData data c).position = some pos ∧
          listGetOpt args k = some ⟨pos,
            !(getData data c).used_in_result
              && ((getData data c).num_created_parents + (cs.take (k + 1)).count c
                    == (getData data c).parents.length)⟩ := by
  intro cs
  induction cs with
  | nil =>
    intro data data2 args h
    simp only [collectArguments] at h
    injection h with h'
    injection h' with h1 h2
    refine ⟨by rw [← h2]; rfl, fun k c hk => Option.noConfusion hk⟩
  | cons c0 cs' ih =>
    intro data data2 args h
    simp only [collectArguments] at h
    cases hpos : (getData data c0).position with
    | none =>
      rw [hpos] at h
      exact Except.noConfusion h
    | some pos0 =>
      simp only [hpos] at h
      obtain ⟨pr, hca, h2⟩ := exceptBind_ok h
      obtain ⟨data2x, argsx⟩ := pr
      injection h2 with h3
      injection h3 with h4 h5
      obtain ⟨ihlen, ihk⟩ := ih _ _ _ hca
      constructor
      · rw [← h5, List.length_cons, ihlen, List.length_cons]
      · intro k c hk
        cases k with
        | zero =>
          have hc : c0 = c := Option.some.inj hk
          subst hc
          refine ⟨pos0, hpos, ?_⟩
          rw [← h5]
          have hcount : ((c0 :: cs').take (0 + 1)).count c0 = 1 := by simp
          rw [hcount]
          rfl
        | succ k' =>
          have hc0lt : c0 < data.length := by
            by_contra hge
            rw [getData_oob (Nat.le_of_not_lt hge)] at hpos
            exact Option.noConfusion hpos
          obtain ⟨pos, hpos', hargs'⟩ := ihk k' c hk
          by_cases hcc : c = c0
          · subst hcc
            have hgd : getData (dataSet data c (fun dd =>
                { dd with num_created_parents := (getData data c).num_created_parents + 1 })) c
                = { getData data c with
                    num_created_parents := (getData data c).num_created_parents + 1 } :=
              getData_dataSet_self _ hc0lt
            simp only [hgd] at hpos' hargs'
            rw [hpos] at hpos'
            obtain rfl := Option.some.inj hpos'
            refine ⟨pos0, hpos, ?_⟩
            rw [← h5]
            show listGetOpt argsx k' = _
            rw [hargs']
            have hcnt : ((c :: cs').take (k' + 1 + 1)).count c
                = (cs'.take (k' + 1)).count c + 1 := by
              simp [List.take_succ_cons, List.count_cons]
            rw [hcnt]
            have harith : (getData data c).num_created_parents + 1
                  + (cs'.take (k' + 1)).count c
                = (getData data c).num_created_parents
                  + ((cs'.take (k' + 1)).count c + 1) := by
              omega
            rw [harith]
          · have hne : c0 ≠ c := fun he => hcc he.symm
            rw [getData_dataSet_ne _ hne] at hpos' hargs'
            refine ⟨pos, hpos', ?_⟩
            rw [← h5]
            show listGetOpt argsx k' = _
            rw [hargs']
            have hcnt : ((c0 :: cs').take (k' + 1 + 1)).count c
                = (cs'.take (k' + 1)).count c := by
              simp [List.take_succ_cons, List.count_cons, hne]
            rw [hcnt]

theorem updateParent_fields (nodes : List (Option Node)) (st : BuildState) (p : Nat) :
    (updateParent nodes st p).actions = st.actions
    ∧ (updateParent nodes st p).num_columns = st.num_columns
    ∧ (updateParent nodes st p).required_columns = st.required_columns
    ∧ (updateParent nodes st p).free_positions = st.free_positions
    ∧ ∀ i, (getData (updateParent nodes st p).data i).position
        = (getData st.data i).position := by
  simp only [updateParent]
  repeat' split
  all_goals exact ⟨rfl, rfl, rfl, rfl, fun i => getData_dataSet_pos (fun d => rfl)⟩

theorem foldl_updateParent_fields (nodes : List (Option Node)) :
    ∀ (ps : List Nat) (st : BuildState),
      ((ps.foldl (updateParent nodes) st).actions = st.actions)
      ∧ ((ps.foldl (updateParent nodes) st).num_columns = st.num_columns)
      ∧ ((ps.foldl (updateParent nodes) st).required_columns = st.required_columns)
      ∧ ((ps.foldl (updateParent nodes) st).free_positions = st.free_positions)
      ∧ ∀ i, (getData ((ps.foldl (updateParent nodes) st).data) i).position
          = (getData st.data i).position := by
  intro ps
  induction ps with
  | nil => intro st; exact ⟨rfl, rfl, rfl, rfl, fun i => rfl⟩
  | cons q qs ih =>
    intro st
    simp only [List.foldl_cons]
    obtain ⟨h1, h2, h3, h4, h5⟩ := ih (updateParent nodes st q)
    obtain ⟨g1, g2, g3, g4, g5⟩ := updateParent_fields nodes st q
    exact ⟨h1.trans g1, h2.trans g2, h3.trans g3, h4.trans g4,
      fun i => (h5 i).trans (g5 i)⟩

theorem processNode_slots {nodes : List (Option Node)} {x : Nat} {st st' : BuildState}
    (hfree : st.free_positions = []) (h : processNode nodes x st = .ok st') :
    st'.free_positions = [] ∧ st'.num_columns = st.num_columns + 1
    ∧ (x < st.data.length → (getData st'.data x).position = some st.num_columns)
    ∧ ((st'.actions = st.actions
          ∧ st'.required_columns.length = st.required_columns.length + 1)
       ∨ (st'.required_columns = st.required_columns
          ∧ ∃ args used, st'.actions = st.actions ++ [⟨x, args, st.num_columns, used⟩])) := by
  simp only [processNode, hfree] at h
  cases hnd : (listGetOpt nodes x).join with
  | none =>
    rw [hnd] at h
    exact Except.noConfusion h
  | some node =>
    simp only [hnd] at h
    obtain ⟨pr, hca, h2⟩ := exceptBind_ok h
    obtain ⟨data2, args⟩ := pr
    injection h2 with h3
    subst h3
    rcases Decidable.em (node.type = NodeType.INPUT) with hty | hty <;>
      [rw [if_pos hty]; rw [if_neg hty]] <;>
      (rcases Decidable.em ((getData st.data x).used_in_result = true) with huse | huse <;>
        [rw [if_pos huse]; rw [if_neg huse]]) <;>
      (cases hrp : node.renaming_parent <;> dsimp only) <;>
      refine ⟨?_, ?_, ?_, ?_⟩ <;>
      first
        | (rw [(updateParent_fields nodes _ _).2.2.2.1,
               (foldl_updateParent_fields nodes _ _).2.2.2.1] <;> rfl)
        | (rw [(foldl_updateParent_fields nodes _ _).2.2.2.1] <;> rfl)
        | (rw [(updateParent_fields nodes _ _).2.1,
               (foldl_updateParent_fields nodes _ _).2.1] <;> rfl)
        | (rw [(foldl_updateParent_fields nodes _ _).2.1] <;> rfl)
        | (intro hx
           rw [(updateParent_fields nodes _ _).2.2.2.2 x,
               (foldl_updateParent_fields nodes _ _).2.2.2.2 x]
           show (getData data2 x).position = some st.num_columns
           rw [collectArguments_data _ _ _ _ hca x, getData_dataSet_self _ hx] <;> rfl)
        | (intro hx
           rw [(foldl_updateParent_fields nodes _ _).2.2.2.2 x]
           show (getData data2 x).position = some st.num_columns
           rw [collectArguments_data _ _ _ _ hca x, getData_dataSet_self _ hx] <;> rfl)
        | (refine Or.inl ⟨?_, ?_⟩
           · first
               | (rw [(updateParent_fields nodes _ _).1,
                      (foldl_updateParent_fields nodes _ _).1] <;> rfl)
               | (rw [(foldl_updateParent_fields nodes _ _).1] <;> rfl)
           · first
               | (rw [(updateParent_fields nodes _ _).2.2.1,
                      (foldl_updateParent_fields nodes _ _).2.2.1]
                  simp)
               | (rw [(foldl_updateParent_fields nodes _ _).2.2.1]
                  simp))
        | (refine Or.inr ⟨?_, args, (getData st.data x).used_in_result, ?_⟩
           · first
               | (rw [(updateParent_fields nodes _ _).2.2.1,
                      (foldl_updateParent_fields nodes _ _).2.2.1] <;> rfl)
               | (rw [(foldl_updateParent_fields nodes _ _).2.2.1] <;> rfl)
           · first
               | (rw [(updateParent_fields nodes _ _).1,
                      (foldl_updateParent_fields nodes _ _).1] <;> rfl)
               | (rw [(foldl_updateParent_fields nodes _ _).1] <;> rfl))

theorem pickReady_fields {st : BuildState} {x : Nat} {st1 : BuildState}
    (h : pickReady st = some (x, st1)) :
    st1.free_positions = st.free_positions ∧ st1.num_columns = st.num_columns
    ∧ st1.actions = st.actions ∧ st1.required_columns = st.required_columns := by
  simp only [pickReady] at h
  cases hrn : st.ready_nodes with
  | cons y ys =>
    rw [hrn] at h
    injection h with h'
    injection h' with h1 h2
    rw [← h2]
    exact ⟨rfl, rfl, rfl, rfl⟩
  | nil =>
    rw [hrn] at h
    cases hra : st.ready_array_joins with
    | nil =>
      rw [hra] at h
      exact Option.noConfusion h
    | cons y ys =>
      rw [hra] at h
      injection h with h'
      injection h' with h1 h2
      rw [← h2]
      exact ⟨rfl, rfl, rfl, rfl⟩

theorem buildLoop_inv {nodes : List (Option Node)} :
    ∀ (fuel : Nat) (st st' : BuildState),
      st.free_positions = [] →
      st.num_columns = st.actions.length + st.required_columns.length →
      List.Chain' (fun a b => a < b) (st.actions.map (fun a => a.result_position)) →
      (∀ a ∈ st.actions, a.result_position < st.num_columns) →
      buildLoop nodes fuel st = .ok st' →
      st'.free_positions = []
      ∧ st'.num_columns = st'.actions.length + st'.required_columns.length
      ∧ List.Chain' (fun a b => a < b) (st'.actions.map (fun a => a.result_position))
      ∧ ∀ a ∈ st'.actions, a.result_position < st'.num_columns := by
  intro fuel
  induction fuel with
  | zero =>
    intro st st' h1 h2 h3 h4 h
    simp only [buildLoop] at h
    injection h with h'
    subst h'
    exact ⟨h1, h2, h3, h4⟩
  | succ fuel ih =>
    intro st st' h1 h2 h3 h4 h
    simp only [buildLoop] at h
    cases hpk : pickReady st with
    | none =>
      rw [hpk] at h
      injection h with h'
      subst h'
      exact ⟨h1, h2, h3, h4⟩
    | some pr =>
      obtain ⟨x, st1⟩ := pr
      simp only [hpk] at h
      obtain ⟨st2, hpn, hbl⟩ := exceptBind_ok h
      obtain ⟨q1, q2, q3, q4⟩ := pickReady_fields hpk
      obtain ⟨p1, p2, -, pcase⟩ := processNode_slots (q1.trans h1) hpn
      rcases pcase with ⟨hA, hR⟩ | ⟨hR, args, used, hA⟩
      · refine ih st2 st' p1 ?_ ?_ ?_ hbl
        · rw [p2, q2, h2, hA, q3, hR, q4]
          omega
        · rw [hA, q3]
          exact h3
        · intro a ha
          rw [hA, q3] at ha
          rw [p2, q2]
          exact Nat.lt_succ_of_lt (h4 a ha)
      · refine ih st2 st' p1 ?_ ?_ ?_ hbl
        · rw [p2, q2, h2, hA, hR, q3, q4]
          simp only [List.length_append, List.length_cons, List.length_nil]
          omega
        · rw [hA, q3, List.map_append]
          simp only [List.map_cons, List.map_nil]
          rw [List.chain'_append]
          refine ⟨h3, List.chain'_singleton _, ?_⟩
          intro y hy z hz
          simp only [List.head?_cons, Option.mem_def, Option.some.injEq] at hz
          subst hz
          obtain ⟨a, ha, rfl⟩ := List.mem_map.mp (List.mem_of_mem_getLast? hy)
          show a.result_position < st1.num_columns
          rw [q2]
          exact h4 a ha
        · intro a ha
          rw [hA, q3] at ha
          rcases List.mem_append.mp ha with h5 | h5
          · rw [p2, q2]
            exact Nat.lt_succ_of_lt (h4 a h5)
          · obtain rfl := List.mem_singleton.mp h5
            show st1.num_columns < st2.num_columns
            rw [p2]
            omega

theorem buildExpressions_slots {dag : ActionsDAG} {p : ExpressionActions}
    (h : dag.buildExpressions = .ok p) :
    p.num_columns = p.actions.length + p.required_columns.length
    ∧ List.Chain' (fun a b => a < b) (p.actions.map (fun a => a.result_position))
    ∧ ∀ a ∈ p.actions, a.result_position < p.num_columns := by
  simp only [ActionsDAG.buildExpressions] at h
  obtain ⟨st, hbl, h2⟩ := exceptBind_ok h
  have hinit : (initBuildState dag).actions = [] := rfl
  have h3i : List.Chain' (fun a b => a < b)
      ((initBuildState dag).actions.map (fun a => a.result_position)) := by
    rw [hinit]
    exact List.chain'_nil
  have h4i : ∀ a ∈ (initBuildState dag).actions,
      a.result_position < (initBuildState dag).num_columns := by
    rw [hinit]
    intro a ha
    exact absurd ha (List.not_mem_nil a)
  obtain ⟨i1, i2, i3, i4⟩ := buildLoop_inv (2 * dag.nodes.length + 1)
    (initBuildState dag) st rfl rfl h3i h4i hbl
  split at h2
  · exact Except.noConfusion h2
  · injection h2 with h3
    rw [← h3]
    exact ⟨i2, i3, i4⟩

/-- C3 (amended): during linearization, for each consumed child argument the
child's `num_created_parents` is incremented and the argument is tagged
`remove = true` exactly when the running count reaches the child's total
parent count and the child is not used in the result; however, nothing is
ever pushed onto the free-slot stack — it stays empty — so every node that
becomes ready takes the slot `num_columns` and extends the slot count by
one, and consequently the result positions of the emitted actions are
strictly increasing and the final slot count is the number of actions plus
the number of required input columns. -/
theorem C3_tagging_and_sequential_slots :
    (∀ (dag : ActionsDAG) (p : ExpressionActions), dag.buildExpressions = .ok p →
        p.num_columns = p.actions.length + p.required_columns.length
        ∧ List.Chain' (fun a b => a < b) (p.actions.map (fun a => a.result_position))
        ∧ ∀ a ∈ p.actions, a.result_position < p.num_columns)
    ∧ (∀ (nodes : List (Option Node)) (x : Nat) (st st' : BuildState),
        st.free_positions = [] → x < st.data.length →
        processNode nodes x st = .ok st' →
        st'.free_positions = [] ∧ st'.num_columns = st.num_columns + 1
        ∧ (getData st'.data x).position = some st.num_columns)
    ∧ (∀ (cs : List Nat) (data data2 : List BEData) (args : List Argument),
        collectArguments data cs = .ok (data2, args) →
        args.length = cs.length
        ∧ ∀ k c, listGetOpt cs k = some c →
          ∃ pos, (getData data c).position = some pos ∧
            listGetOpt args k = some ⟨pos,
              !(getData data c).used_in_result
                && ((getData data c).num_created_parents + (cs.take (k + 1)).count c
                      == (getData data c).parents.length)⟩) :=
  ⟨fun _ _ h => buildExpressions_slots h,
   fun _ x _ _ hfree hx h =>
     let r := processNode_slots hfree h
     ⟨r.1, r.2.1, r.2.2.1 hx⟩,
   fun cs data data2 args h => collectArguments_remove cs data data2 args h⟩

/-- C3 amended witness: on the concrete input/function/function DAG the
linearizer allocates sequential slots: the slot count is the number of
actions plus required columns and the action positions strictly increase. -/
theorem C3_amended_witness :
    ∃ p, c3dag.buildExpressions = .ok p
      ∧ p.num_columns = p.actions.length + p.required_columns.length
      ∧ List.Chain' (fun a b => a < b) (p.actions.map (fun a => a.result_position)) := by
  refine ⟨_, rfl, ?_, ?_⟩
  · exact (C3_tagging_and_sequential_slots.1 c3dag _ rfl).1
  · exact (C3_tagging_and_sequential_slots.1 c3dag _ rfl).2.1

end CH
